import Mathlib

/-!
# Lexicon wiki — verification of the content-graph core

Shallow embedding of the `lexicon` repository's content-graph subsystem:
the slug normalizer (`internal/database/pages.go`, `Slugify`), the wiki-link
inline parser (`internal/markdown/wikilink`, `Parser.Parse`), the link
extractor (`internal/markdown/markdown.go`), and the page/revision store with
its FTS index (`internal/database/pages.go`, `revisions.go`), together with
the save handler path (`internal/handler/pages.go`, `SavePage` and
`processWikiLinks`).

SQL tables are embedded as Lean lists kept in insertion (rowid) order;
timestamps are `Nat` values supplied to each operation (Go's `time.Now()`);
fallible operations return `Except DbError`.  A failed operation leaves the
caller's store unchanged, matching the transaction rollback / early return in
the Go code.
-/

namespace Lexicon

/-! ## Slug normalizer (`database.Slugify`) -/

/-- Unicode NFKD decomposition of one character, modelled from the library
call `norm.NFKD.String` (golang.org/x/text, not part of this repository's
sources).  NFKD is the identity on ASCII; a small table covers the decomposed
accented Latin letters exercised by the repository's tests; other characters
are kept as themselves (any such character is dropped by the later
`[a-z0-9-]` filter exactly as its real decomposition would be). -/
def nfkdChar (c : Char) : List Char :=
  if c.toNat < 128 then [c]
  else if c = 'é' then ['e', '́']
  else if c = 'ï' then ['i', '̈']
  else if c = 'Ü' then ['U', '̈']
  else if c = 'ü' then ['u', '̈']
  else [c]

/-- The character class kept by `Slugify`'s filter loop (the Go rune
comparisons `r >= 'a' && r <= 'z'`, `r >= '0' && r <= '9'`, `r == '-'`,
written on code points): `a-z`, `0-9`, `-`. -/
def isSlugChar (c : Char) : Bool :=
  (97 ≤ c.toNat && c.toNat ≤ 122) || (48 ≤ c.toNat && c.toNat ≤ 57) ||
  c.toNat == 45

/-- `strings.ReplaceAll(s, " ", "-")` and `strings.ReplaceAll(s, "_", "-")`. -/
def hyphenate (c : Char) : Char :=
  if c == ' ' || c == '_' then '-' else c

/-- `regexp.MustCompile("-+").ReplaceAllString(s, "-")`: every maximal run of
hyphens becomes a single hyphen. -/
def collapseHyphens : List Char → List Char
  | [] => []
  | [c] => [c]
  | a :: b :: rest =>
    if a == '-' && b == '-' then collapseHyphens (b :: rest)
    else a :: collapseHyphens (b :: rest)

/-- `strings.Trim(s, "-")`: strip leading and trailing hyphens. -/
def trimHyphens (l : List Char) : List Char :=
  ((l.dropWhile (· == '-')).reverse.dropWhile (· == '-')).reverse

/-- `database.Slugify` on a character list: NFKD-normalize, lowercase,
map space and underscore to `-`, keep only `[a-z0-9-]` (the combining-mark
branch of the Go loop also drops its character, so the filter alone is
faithful), collapse hyphen runs, trim hyphens. -/
def slugifyChars (l : List Char) : List Char :=
  trimHyphens (collapseHyphens
    ((((l.flatMap nfkdChar).map Char.toLower).map hyphenate).filter isSlugChar))

/-- `database.Slugify`. -/
def Slugify (title : String) : String :=
  ⟨slugifyChars title.data⟩

example : Slugify "Page Name" = "page-name" := by decide
example : Slugify "Café" = "cafe" := by decide
example : Slugify "  Multiple   Spaces " = "multiple-spaces" := by decide
example : Slugify "日本語" = "" := by decide
example : Slugify "---hyphens---" = "hyphens" := by decide
example : Slugify "Hello_World" = "hello-world" := by decide

/-! ## Wiki-link inline parser (`wikilink.Parser.Parse`) -/

/-- Go's `unicode.IsSpace` on the characters `strings.TrimSpace` strips:
space, `\t`, `\n`, `\v`, `\f`, `\r`, NEL (U+0085), NBSP (U+00A0). -/
def isSpaceChar (c : Char) : Bool :=
  c == ' ' || c == '\t' || c == '\n' || c == ⟨11, by decide⟩ ||
  c == ⟨12, by decide⟩ || c == '\r' || c == ⟨0x85, by decide⟩ ||
  c == ⟨0xA0, by decide⟩

/-- `strings.TrimSpace`: strip whitespace at both ends. -/
def trimSpace (l : List Char) : List Char :=
  ((l.dropWhile isSpaceChar).reverse.dropWhile isSpaceChar).reverse

/-- The scan for a closing `]]` in `Parser.Parse` (the loop over
`i := 2; i < len(line)-1`): walking the bytes after the opening `[[`, return
the content before the first `]]`, abort on a newline or when no `]]` is
found before the line runs out. -/
def contentBeforeClose : List Char → Option (List Char)
  | c1 :: c2 :: rest =>
    if c1 == ']' && c2 == ']' then some []
    else if c1 == '\n' then none
    else (contentBeforeClose (c2 :: rest)).map (c1 :: ·)
  | _ => none

/-- `strings.Index(content, "|")` followed by the two slices: the part before
the first `|` and, when a `|` exists, the part after it. -/
def splitFirstPipe : List Char → List Char × Option (List Char)
  | [] => ([], none)
  | c :: rest =>
    if c == '|' then ([], some rest)
    else
      let (l, r) := splitFirstPipe rest
      (c :: l, r)

/-- `wikilink.Parser.Parse` on the remainder of the current line, returning
the node's `Target`, its `DisplayText` and the number of characters consumed
(`segment.Start + end + 2` advances past the closing `]]`); `none` models the
parser returning a nil node (the text stays literal). -/
def parseWikiLinkC (line : List Char) : Option (String × String × Nat) :=
  if line.length < 4 then none
  else
    match line with
    | '[' :: '[' :: rest =>
      match contentBeforeClose rest with
      | none => none
      | some content =>
        if content.isEmpty then none
        else
          let (target, displayText) :=
            match splitFirstPipe content with
            | (l, some r) => (trimSpace l, trimSpace r)
            | (l, none) => let t := trimSpace l; (t, t)
          if target.isEmpty then none
          else
            let slug := slugifyChars target
            if slug.isEmpty then none
            else some (⟨slug⟩, ⟨displayText⟩, content.length + 4)
    | _ => none

/-- `Parser.Parse` projected onto the produced node. -/
def parseWikiLink (line : List Char) : Option (String × String) :=
  (parseWikiLinkC line).map (fun x => (x.1, x.2.1))

example : parseWikiLink "[[Page Name]]".data = some ("page-name", "Page Name") := by decide
example : parseWikiLink "[[Page Name|Display]]".data = some ("page-name", "Display") := by decide
example : parseWikiLink "[[ Page Name | Display Text ]]".data =
    some ("page-name", "Display Text") := by decide
example : parseWikiLink "[[]]".data = none := by decide
example : parseWikiLink "[[Page".data = none := by decide
example : parseWikiLink "[[The Battle of Foo!]]".data =
    some ("the-battle-of-foo", "The Battle of Foo!") := by decide

/-! ## Link extractor (`markdown.ExtractLinks`, `markdown.UniqueTargets`) -/

/-- Models `Renderer.ExtractLinks` (markdown.go): goldmark parses the
document and an AST walk collects every `WikiLink` node in document order.
The goldmark machinery is a third-party library; its inline pass is modelled
as a left-to-right scan that, at each position, offers the rest of the text
to the wiki-link parser (which itself refuses to cross a line break) and
advances past a recognized link or by one character.  Block constructs that
suppress inline parsing (code fences, etc.) are not modelled. -/
def scanLinks : Nat → List Char → List (String × String)
  | 0, _ => []
  | _, [] => []
  | fuel + 1, c :: rest =>
    match parseWikiLinkC (c :: rest) with
    | some (t, d, consumed) => (t, d) :: scanLinks fuel (List.drop consumed (c :: rest))
    | none => scanLinks fuel rest

/-- `Renderer.ExtractLinks`. -/
def extractLinks (content : String) : List (String × String) :=
  scanLinks content.data.length content.data

/-- `markdown.UniqueTargets`: deduplicate targets, keeping first-seen order. -/
def uniqueTargets (links : List (String × String)) : List String :=
  links.foldl (fun acc l => if acc.contains l.1 then acc else acc ++ [l.1]) []

example : extractLinks "see [[Unwritten Topic|see here]] and [[Other]]" =
    [("unwritten-topic", "see here"), ("other", "Other")] := by decide
example : uniqueTargets [("a", "x"), ("b", "y"), ("a", "z")] = ["a", "b"] := by decide

/-! ## Page/revision store (`internal/database`)

The SQLite tables are lists in rowid (insertion) order.  `AUTOINCREMENT`
ids are tracked by `nextPageId` / `nextRevId`.  Operation timestamps are
explicit `now : Nat` arguments standing for `time.Now()` /
`CURRENT_TIMESTAMP`. -/

/-- A row of the `pages` table. -/
structure PageRow where
  id : Nat
  slug : String
  title : String
  isPhantom : Bool
  firstCitedByUserID : Option Nat
  firstCitedInPageID : Option Nat
  deletedAt : Option Nat
  createdAt : Nat
  updatedAt : Nat
  deriving Repr, DecidableEq

/-- A row of the `revisions` table. -/
structure RevisionRow where
  id : Nat
  pageId : Nat
  content : String
  authorId : Nat
  createdAt : Nat
  deriving Repr, DecidableEq

/-- A row of the `pages_fts` FTS5 table (`rowid`, `title`, `content`). -/
structure FtsRow where
  rowid : Nat
  title : String
  content : String
  deriving Repr, DecidableEq

/-- The persistent store: the three tables the content core touches. -/
structure Store where
  pages : List PageRow
  revisions : List RevisionRow
  fts : List FtsRow
  nextPageId : Nat
  nextRevId : Nat
  deriving Repr, DecidableEq

/-- A freshly migrated database: empty tables, autoincrement counters at 1. -/
def emptyStore : Store :=
  { pages := [], revisions := [], fts := [], nextPageId := 1, nextRevId := 1 }

/-- Errors surfaced by store operations. -/
inductive DbError where
  /-- `database.ErrNotFound`. -/
  | notFound
  /-- `errors.New("page already exists")` in `CreatePage`. -/
  | alreadyExists
  /-- a constraint violation surfaced by the SQL driver (e.g. the foreign-key
  failure when a revision is inserted for a missing page). -/
  | storageFailure
  deriving Repr, DecidableEq

/-- `SELECT ... FROM pages WHERE slug = ?` (the slug column is `UNIQUE`). -/
def findPageBySlug (s : Store) (slug : String) : Option PageRow :=
  s.pages.find? (fun p => p.slug == slug)

/-- `DB.GetPageBySlug`: no `deleted_at` filter is applied. -/
def getPageBySlug (s : Store) (slug : String) : Except DbError PageRow :=
  match findPageBySlug s slug with
  | some p => .ok p
  | none => .error .notFound

/-- `DB.GetPageByID`: no `deleted_at` filter is applied. -/
def getPageByID (s : Store) (id : Nat) : Except DbError PageRow :=
  match s.pages.find? (fun p => p.id == id) with
  | some p => .ok p
  | none => .error .notFound

/-- `ORDER BY created_at DESC LIMIT 1` over a row list: the first row (in
scan order) holding the maximal `createdAt`.  The SQL has no secondary sort
key, so ties are returned in the stable scan order of the underlying table. -/
def pickCurrent : List RevisionRow → Option RevisionRow
  | [] => none
  | r :: rest =>
    match pickCurrent rest with
    | none => some r
    | some b => if b.createdAt > r.createdAt then some b else some r

/-- `DB.GetCurrentRevision`'s query (`WHERE page_id = ? ORDER BY created_at
DESC LIMIT 1`), as the row it returns.  The `JOIN users` only adds the author
name and is dropped here. -/
def currentRevision (s : Store) (pageID : Nat) : Option RevisionRow :=
  pickCurrent (s.revisions.filter (fun r => r.pageId == pageID))

/-- `DB.GetCurrentRevision`: `ErrNotFound` when the page has no revisions. -/
def getCurrentRevision (s : Store) (pageID : Nat) : Except DbError RevisionRow :=
  match currentRevision s pageID with
  | some r => .ok r
  | none => .error .notFound

/-- `DB.CreatePage`: inside one transaction, look the slug up; a fresh slug
inserts a new real page, an existing phantom is converted in place
(`UPDATE pages SET title = ?, is_phantom = 0, updated_at = ?`), an existing
real page aborts with `AlreadyExists`; then the first/new revision and the
FTS entry are inserted.  Returns the resulting store and the page id. -/
def createPage (s : Store) (slug title content : String) (authorID now : Nat) :
    Except DbError (Store × Nat) :=
  match findPageBySlug s slug with
  | none =>
    let pid := s.nextPageId
    let page : PageRow :=
      { id := pid, slug := slug, title := title, isPhantom := false,
        firstCitedByUserID := none, firstCitedInPageID := none,
        deletedAt := none, createdAt := now, updatedAt := now }
    let rev : RevisionRow :=
      { id := s.nextRevId, pageId := pid, content := content,
        authorId := authorID, createdAt := now }
    .ok ({ pages := s.pages ++ [page],
           revisions := s.revisions ++ [rev],
           fts := s.fts ++ [⟨pid, title, content⟩],
           nextPageId := pid + 1,
           nextRevId := s.nextRevId + 1 }, pid)
  | some p =>
    if p.isPhantom then
      let pid := p.id
      let rev : RevisionRow :=
        { id := s.nextRevId, pageId := pid, content := content,
          authorId := authorID, createdAt := now }
      .ok ({ pages := s.pages.map (fun q =>
               if q.id == pid then
                 { q with title := title, isPhantom := false, updatedAt := now }
               else q),
             revisions := s.revisions ++ [rev],
             fts := s.fts ++ [⟨pid, title, content⟩],
             nextPageId := s.nextPageId,
             nextRevId := s.nextRevId + 1 }, pid)
    else .error .alreadyExists

/-- `DB.UpdatePage`: inside one transaction, update the page's title and
`updated_at`, insert a new revision, and replace (`DELETE` + `INSERT`) the
FTS entry.  No phantom or soft-delete check is made.  When no page has this
id the revision insert violates its foreign key (`foreign_keys` is on) and
the transaction rolls back. -/
def updatePage (s : Store) (pageID : Nat) (title content : String)
    (authorID now : Nat) : Except DbError Store :=
  if (s.pages.find? (fun p => p.id == pageID)).isSome then
    .ok { pages := s.pages.map (fun q =>
            if q.id == pageID then { q with title := title, updatedAt := now }
            else q),
          revisions := s.revisions ++
            [{ id := s.nextRevId, pageId := pageID, content := content,
               authorId := authorID, createdAt := now }],
          fts := (s.fts.filter (fun f => f.rowid != pageID)) ++
            [⟨pageID, title, content⟩],
          nextPageId := s.nextPageId,
          nextRevId := s.nextRevId + 1 }
  else .error .storageFailure

/-- `DB.CreatePhantom`: if any page (real or phantom, deleted or not) has the
slug, return it unchanged; otherwise insert a phantom row carrying the
provenance fields. -/
def createPhantom (s : Store) (slug title : String)
    (citedByUserID citedInPageID now : Nat) : Except DbError (Store × Nat) :=
  match findPageBySlug s slug with
  | some p => .ok (s, p.id)
  | none =>
    let pid := s.nextPageId
    .ok ({ s with
           pages := s.pages ++
             [{ id := pid, slug := slug, title := title, isPhantom := true,
                firstCitedByUserID := some citedByUserID,
                firstCitedInPageID := some citedInPageID,
                deletedAt := none, createdAt := now, updatedAt := now }],
           nextPageId := pid + 1 }, pid)

/-- `DB.PageExists`: `COUNT(*) > 0` over all pages with the slug. -/
def pageExists (s : Store) (slug : String) : Bool :=
  s.pages.any (fun p => p.slug == slug)

/-- `DB.SoftDeletePage`: `UPDATE ... SET deleted_at = CURRENT_TIMESTAMP WHERE
id = ? AND deleted_at IS NULL`; zero affected rows is `ErrNotFound`, else the
FTS entry is deleted (outside any transaction, error ignored). -/
def softDeletePage (s : Store) (pageID now : Nat) : Except DbError Store :=
  if (s.pages.find? (fun p => p.id == pageID && p.deletedAt.isNone)).isSome then
    .ok { s with
          pages := s.pages.map (fun q =>
            if q.id == pageID && q.deletedAt.isNone then
              { q with deletedAt := some now, updatedAt := now }
            else q),
          fts := s.fts.filter (fun f => f.rowid != pageID) }
  else .error .notFound

/-- `DB.RestorePage`: select title and latest-revision content of the
soft-deleted page via `LEFT JOIN revisions ... ORDER BY r.created_at DESC
LIMIT 1` (so a page without revisions yields `COALESCE(r.content,'') = ''`,
not `ErrNoRows`); `ErrNotFound` only when no soft-deleted row has the id;
then clear `deleted_at` and re-insert the FTS entry. -/
def restorePage (s : Store) (pageID now : Nat) : Except DbError Store :=
  match s.pages.find? (fun p => p.id == pageID && p.deletedAt.isSome) with
  | none => .error .notFound
  | some p =>
    let content :=
      match currentRevision s pageID with
      | some r => r.content
      | none => ""
    .ok { s with
          pages := s.pages.map (fun q =>
            if q.id == pageID then { q with deletedAt := none, updatedAt := now }
            else q),
          fts := s.fts ++ [⟨pageID, p.title, content⟩] }

/-- `DB.ListPages`: real, non-deleted pages, `ORDER BY title ASC`
(insertion sort embeds the stable ordering). -/
def listPages (s : Store) : List PageRow :=
  (s.pages.filter (fun p => !p.isPhantom && p.deletedAt.isNone)).insertionSort
    (fun a b => a.title ≤ b.title)

/-- `DB.ListPhantoms`: non-deleted phantoms, `ORDER BY title ASC`. -/
def listPhantoms (s : Store) : List PageRow :=
  (s.pages.filter (fun p => p.isPhantom && p.deletedAt.isNone)).insertionSort
    (fun a b => a.title ≤ b.title)

/-- `DB.ListRecentPages`: real, non-deleted pages, `ORDER BY updated_at DESC
LIMIT ?`. -/
def listRecentPages (s : Store) (limit : Nat) : List PageRow :=
  ((s.pages.filter (fun p => !p.isPhantom && p.deletedAt.isNone)).insertionSort
    (fun a b => b.updatedAt ≤ a.updatedAt)).take limit

/-- `DB.ListDeletedPages`: soft-deleted pages, `ORDER BY deleted_at DESC`. -/
def listDeletedPages (s : Store) : List PageRow :=
  (s.pages.filter (fun p => p.deletedAt.isSome)).insertionSort
    (fun a b => b.deletedAt.getD 0 ≤ a.deletedAt.getD 0)

/-- `DB.PageStats`: the two `COUNT(*)` queries over non-deleted pages. -/
def pageStats (s : Store) : Nat × Nat :=
  ((s.pages.filter (fun p => !p.isPhantom && p.deletedAt.isNone)).length,
   (s.pages.filter (fun p => p.isPhantom && p.deletedAt.isNone)).length)

/-! ## Save handler path (`internal/handler/pages.go`) -/

/-- One iteration of the `processWikiLinks` loop: skip existing targets,
otherwise create a phantom titled with the display text of the first link
carrying the target; `CreatePhantom` errors are ignored. -/
def processTarget (links : List (String × String)) (userID pageID now : Nat)
    (st : Store) (target : String) : Store :=
  if pageExists st target then st
  else
    let displayText := ((links.find? (fun l => l.1 == target)).map
      (fun l => l.2)).getD ""
    match createPhantom st target displayText userID pageID now with
    | .ok (st2, _) => st2
    | .error _ => st

/-- `Handler.processWikiLinks`: for each unique extracted target that does
not yet exist, create a phantom.  Each Go iteration takes its own
`time.Now()`; a single `now` stands for them all. -/
def processWikiLinks (s : Store) (content : String) (userID pageID now : Nat) :
    Store :=
  let links := extractLinks content
  (uniqueTargets links).foldl (processTarget links userID pageID now) s

/-- `Handler.SavePage`: the slug is the raw URL parameter; empty or oversized
titles/content abort without touching the store (`len` in Go counts bytes);
a missing or phantom page goes to `CreatePage`, an existing real page to
`UpdatePage`; afterwards wiki links are processed against the saving page's
id.  Store errors abort before link processing. -/
def savePage (s : Store) (slug title content : String) (userID now : Nat) :
    Store :=
  if title = "" then s
  else if title.utf8ByteSize > 500 then s
  else if content.utf8ByteSize > 500 * 1024 then s
  else
    match findPageBySlug s slug with
    | none =>
      match createPage s slug title content userID now with
      | .ok (s2, pid) => processWikiLinks s2 content userID pid now
      | .error _ => s
    | some p =>
      if p.isPhantom then
        match createPage s slug title content userID now with
        | .ok (s2, pid) => processWikiLinks s2 content userID pid now
        | .error _ => s
      else
        match updatePage s p.id title content userID now with
        | .ok s2 => processWikiLinks s2 content userID p.id now
        | .error _ => s

/-! ## Operation sequences over the store

The universe of content-mutating store operations named by the search-index
invariant, with explicit timestamps. -/

/-- One store mutation with its `time.Now()` value. -/
inductive Op where
  | create (slug title content : String) (authorID now : Nat)
  | update (pageID : Nat) (title content : String) (authorID now : Nat)
  | softDelete (pageID now : Nat)
  | restore (pageID now : Nat)
  deriving Repr, DecidableEq

/-- The timestamp an operation runs at. -/
def Op.time : Op → Nat
  | .create _ _ _ _ now => now
  | .update _ _ _ _ now => now
  | .softDelete _ now => now
  | .restore _ now => now

/-- Apply one operation; a failed operation (rolled-back transaction or early
error return) leaves the store unchanged. -/
def applyOp (s : Store) : Op → Store
  | .create slug title content aid now =>
    match createPage s slug title content aid now with
    | .ok (s2, _) => s2
    | .error _ => s
  | .update pid title content aid now =>
    match updatePage s pid title content aid now with
    | .ok s2 => s2
    | .error _ => s
  | .softDelete pid now =>
    match softDeletePage s pid now with
    | .ok s2 => s2
    | .error _ => s
  | .restore pid now =>
    match restorePage s pid now with
    | .ok s2 => s2
    | .error _ => s

/-- Run a sequence of operations. -/
def runOps (s : Store) (ops : List Op) : Store :=
  ops.foldl applyOp s

/-- `update` may only target a page that exists and is not soft-deleted
(the discipline the save handler is meant to enforce). -/
def opOK (s : Store) : Op → Bool
  | .update pid _ _ _ _ =>
    s.pages.any (fun p => p.id == pid && p.deletedAt.isNone && !p.isPhantom)
  | _ => true

/-- A legal run starting no earlier than `t`: timestamps strictly increase
(Go's `time.Now()` between successive store calls) and every `update`
targets a live real page. -/
def legalFrom : Nat → Store → List Op → Bool
  | _, _, [] => true
  | t, s, op :: rest =>
    t ≤ op.time && opOK s op && legalFrom (op.time + 1) (applyOp s op) rest

example :
    (runOps emptyStore [.create "a" "A" "hello" 1 0]).pages =
      [{ id := 1, slug := "a", title := "A", isPhantom := false,
         firstCitedByUserID := none, firstCitedInPageID := none,
         deletedAt := none, createdAt := 0, updatedAt := 0 }] := by decide

/-! ## C3 — CreatePhantom is idempotent -/

/-- C3: `CreatePhantom(slug, title, citedByUser, citedInPage)` is idempotent:
whenever the slug already resolves to any page (real or phantom), the call
returns that page's id with the store — hence every field of the page,
`firstCitedByUser` and `firstCitedInPage` included — unchanged, creating no
row and raising no error, so phantom provenance is never overwritten by a
later citation. -/
theorem createPhantom_idempotent (s : Store) (slug title : String)
    (citedBy citedIn now : Nat) (p : PageRow)
    (h : findPageBySlug s slug = some p) :
    createPhantom s slug title citedBy citedIn now = .ok (s, p.id) := by
  simp [createPhantom, h]

theorem createPhantom_idempotent_witness :
    findPageBySlug (runOps emptyStore [.create "a" "A" "x" 1 0]) "a" =
      some { id := 1, slug := "a", title := "A", isPhantom := false,
             firstCitedByUserID := none, firstCitedInPageID := none,
             deletedAt := none, createdAt := 0, updatedAt := 0 } ∧
    createPhantom (runOps emptyStore [.create "a" "A" "x" 1 0]) "a" "T" 7 9 5 =
      .ok (runOps emptyStore [.create "a" "A" "x" 1 0], 1) :=
  ⟨by decide,
   createPhantom_idempotent (runOps emptyStore [.create "a" "A" "x" 1 0])
     "a" "T" 7 9 5
     { id := 1, slug := "a", title := "A", isPhantom := false,
       firstCitedByUserID := none, firstCitedInPageID := none,
       deletedAt := none, createdAt := 0, updatedAt := 0 } (by decide)⟩

/-! ## C2 — CreatePage case analysis -/

/-- C2: `CreatePage(slug, title, content, author)` fails with `AlreadyExists`
when a non-phantom page with the slug exists; an existing phantom is instead
converted in place — same id, slug, `firstCitedByUser`, `firstCitedInPage`,
with `isPhantom` cleared — and exactly one revision is appended; a fresh slug
inserts a new page plus a first revision; and the only error the operation
can surface is `AlreadyExists`, which leaves the store untouched (the model
of the rolled-back transaction). -/
theorem createPage_spec (s : Store) (slug title content : String)
    (authorID now : Nat) :
    (∀ p, findPageBySlug s slug = some p → p.isPhantom = false →
      createPage s slug title content authorID now = .error .alreadyExists) ∧
    (∀ p, findPageBySlug s slug = some p → p.isPhantom = true →
      createPage s slug title content authorID now =
        .ok ({ pages := s.pages.map (fun q =>
                 if q.id == p.id then
                   { q with
                     title := title, isPhantom := false, updatedAt := now }
                 else q),
               revisions := s.revisions ++
                 [{ id := s.nextRevId, pageId := p.id, content := content,
                    authorId := authorID, createdAt := now }],
               fts := s.fts ++ [⟨p.id, title, content⟩],
               nextPageId := s.nextPageId,
               nextRevId := s.nextRevId + 1 }, p.id) ∧
      { p with
        title := title, isPhantom := false, updatedAt := now } ∈
        (s.pages.map (fun q =>
          if q.id == p.id then
            { q with
              title := title, isPhantom := false, updatedAt := now }
          else q))) ∧
    (findPageBySlug s slug = none →
      createPage s slug title content authorID now =
        .ok ({ pages := s.pages ++
                 [{ id := s.nextPageId, slug := slug, title := title,
                    isPhantom := false, firstCitedByUserID := none,
                    firstCitedInPageID := none, deletedAt := none,
                    createdAt := now, updatedAt := now }],
               revisions := s.revisions ++
                 [{ id := s.nextRevId, pageId := s.nextPageId,
                    content := content, authorId := authorID,
                    createdAt := now }],
               fts := s.fts ++ [⟨s.nextPageId, title, content⟩],
               nextPageId := s.nextPageId + 1,
               nextRevId := s.nextRevId + 1 }, s.nextPageId)) ∧
    (∀ e, createPage s slug title content authorID now = .error e →
      e = .alreadyExists) := by
  refine ⟨?_, ?_, ?_, ?_⟩
  · intro p h hph
    simp [createPage, h, hph]
  · intro p h hph
    constructor
    · simp [createPage, h, hph]
    · have hp : p ∈ s.pages := List.mem_of_find?_eq_some h
      have := List.mem_map_of_mem (fun q =>
        if q.id == p.id then
          { q with title := title, isPhantom := false, updatedAt := now }
        else q) hp
      simpa using this
  · intro h
    simp [createPage, h]
  · intro e h
    unfold createPage at h
    cases hf : findPageBySlug s slug with
    | none => rw [hf] at h; simp at h
    | some p =>
      rw [hf] at h
      by_cases hph : p.isPhantom <;> simp [hph] at h
      exact h.symm

theorem createPage_spec_witness :
    findPageBySlug emptyStore "a" = none ∧
    createPage emptyStore "a" "A" "x" 1 0 =
      .ok ({ pages := [{ id := 1, slug := "a", title := "A",
                         isPhantom := false, firstCitedByUserID := none,
                         firstCitedInPageID := none, deletedAt := none,
                         createdAt := 0, updatedAt := 0 }],
             revisions := [{ id := 1, pageId := 1, content := "x",
                             authorId := 1, createdAt := 0 }],
             fts := [⟨1, "A", "x"⟩],
             nextPageId := 2, nextRevId := 2 }, 1) := by
  have h := (createPage_spec emptyStore "a" "A" "x" 1 0).2.2.1 (by decide)
  exact ⟨by decide, by simpa using h⟩

/-! ## C9 — Slugify is idempotent

Structure of the proof: every character surviving the filter stage lies in
`[a-z0-9-]`; collapsing leaves no adjacent hyphen pair; trimming leaves no
hyphen at either end; and on strings already of that shape every stage of
`Slugify` is the identity. -/

/-- No adjacent double hyphen. -/
def NoDD (a b : Char) : Prop := ¬(a = '-' ∧ b = '-')

theorem mem_collapseHyphens : ∀ (l : List Char) (c : Char),
    c ∈ collapseHyphens l → c ∈ l
  | [], c, h => by simp [collapseHyphens] at h
  | [a], c, h => by simpa [collapseHyphens] using h
  | a :: b :: rest, c, h => by
    by_cases hab : (a == '-' && b == '-') = true
    · rw [collapseHyphens, if_pos hab] at h
      exact List.mem_cons_of_mem _ (mem_collapseHyphens (b :: rest) c h)
    · rw [collapseHyphens, if_neg hab] at h
      rcases List.mem_cons.mp h with h1 | h2
      · simp [h1]
      · exact List.mem_cons_of_mem _ (mem_collapseHyphens (b :: rest) c h2)

theorem head?_collapseHyphens : ∀ l : List Char,
    (collapseHyphens l).head? = l.head?
  | [] => rfl
  | [_] => rfl
  | a :: b :: rest => by
    by_cases hab : (a == '-' && b == '-') = true
    · have hae : a = '-' ∧ b = '-' := by
        simpa [Bool.and_eq_true, beq_iff_eq] using hab
      rw [collapseHyphens, if_pos hab, head?_collapseHyphens (b :: rest)]
      simp [hae.1, hae.2]
    · rw [collapseHyphens, if_neg hab]
      rfl

theorem chain'_collapseHyphens : ∀ l : List Char,
    List.Chain' NoDD (collapseHyphens l)
  | [] => by simp [collapseHyphens]
  | [a] => by simp [collapseHyphens]
  | a :: b :: rest => by
    by_cases hab : (a == '-' && b == '-') = true
    · rw [collapseHyphens, if_pos hab]
      exact chain'_collapseHyphens (b :: rest)
    · rw [collapseHyphens, if_neg hab]
      refine List.chain'_cons'.mpr ⟨?_, chain'_collapseHyphens (b :: rest)⟩
      intro h hh
      rw [head?_collapseHyphens (b :: rest)] at hh
      simp only [List.head?_cons, Option.mem_def, Option.some.injEq] at hh
      subst hh
      intro ⟨ha, hb⟩
      exact hab (by simp [ha, hb])

theorem collapseHyphens_eq_self : ∀ l : List Char,
    List.Chain' NoDD l → collapseHyphens l = l
  | [], _ => rfl
  | [_], _ => rfl
  | a :: b :: rest, h => by
    have hab : ¬(a == '-' && b == '-') = true := by
      have := (List.chain'_cons.mp h).1
      simp only [NoDD] at this
      simp only [Bool.and_eq_true, beq_iff_eq]
      exact fun hc => this hc
    rw [collapseHyphens, if_neg hab,
      collapseHyphens_eq_self (b :: rest) (List.chain'_cons.mp h).2]

theorem chain'_dropWhile {R : Char → Char → Prop} (p : Char → Bool) :
    ∀ l : List Char, List.Chain' R l → List.Chain' R (l.dropWhile p)
  | [], _ => by simp
  | a :: t, h => by
    by_cases hp : p a = true
    · rw [List.dropWhile_cons, if_pos hp]
      exact chain'_dropWhile p t h.tail
    · rw [List.dropWhile_cons, if_neg hp]
      exact h

theorem head?_dropWhile (p : Char → Bool) :
    ∀ (l : List Char) (x : Char), (l.dropWhile p).head? = some x → p x = false
  | [], x, h => by simp at h
  | a :: t, x, h => by
    by_cases hp : p a = true
    · rw [List.dropWhile_cons, if_pos hp] at h
      exact head?_dropWhile p t x h
    · rw [List.dropWhile_cons, if_neg hp] at h
      simp only [List.head?_cons, Option.some.injEq] at h
      subst h
      simpa using hp

theorem getLast?_cons_of_ne_nil (a : Char) {t : List Char} (h : t ≠ []) :
    (a :: t).getLast? = t.getLast? := by
  cases t with
  | nil => exact absurd rfl h
  | cons b u => simp [List.getLast?_cons_cons]

theorem getLast?_dropWhile (p : Char → Bool) :
    ∀ l : List Char, l.dropWhile p ≠ [] → (l.dropWhile p).getLast? = l.getLast?
  | [], h => by simp at h
  | a :: t, h => by
    by_cases hp : p a = true
    · rw [List.dropWhile_cons, if_pos hp] at h ⊢
      have ht : t ≠ [] := by
        intro he
        rw [he] at h
        simp at h
      rw [getLast?_dropWhile p t h, getLast?_cons_of_ne_nil a ht]
    · rw [List.dropWhile_cons, if_neg hp]

/-- The trim stage of `Slugify` on an input whose ends are not hyphens is the
identity. -/
theorem trimHyphens_eq_self (l : List Char) (h1 : l.head? ≠ some '-')
    (h2 : l.getLast? ≠ some '-') : trimHyphens l = l := by
  unfold trimHyphens
  have hd : l.dropWhile (· == '-') = l := by
    cases l with
    | nil => simp
    | cons a t =>
      rw [List.dropWhile_cons, if_neg]
      simp only [List.head?_cons, ne_eq, Option.some.injEq] at h1
      simpa using h1
  rw [hd]
  have hr : l.reverse.dropWhile (· == '-') = l.reverse := by
    cases hrev : l.reverse with
    | nil => simp
    | cons a t =>
      rw [List.dropWhile_cons, if_neg]
      have : l.reverse.head? = some a := by rw [hrev]; rfl
      rw [List.head?_reverse] at this
      rw [this] at h2
      simp only [ne_eq, Option.some.injEq] at h2
      simpa using h2
  rw [hr, List.reverse_reverse]

/-- A string shaped like a `Slugify` output: slug characters only, no double
hyphen, no hyphen at either end. -/
def Canonical (l : List Char) : Prop :=
  (∀ c ∈ l, isSlugChar c = true) ∧ List.Chain' NoDD l ∧
  l.head? ≠ some '-' ∧ l.getLast? ≠ some '-'

theorem slug_ranges {c : Char} (h : isSlugChar c = true) :
    (97 ≤ c.toNat ∧ c.toNat ≤ 122) ∨ (48 ≤ c.toNat ∧ c.toNat ≤ 57) ∨
    c.toNat = 45 := by
  simpa [isSlugChar, Bool.or_eq_true, Bool.and_eq_true, decide_eq_true_eq,
    beq_iff_eq, or_assoc] using h

theorem nfkdChar_of_slug {c : Char} (h : isSlugChar c = true) :
    nfkdChar c = [c] := by
  have h2 := slug_ranges h
  have : c.toNat < 128 := by omega
  simp [nfkdChar, this]

theorem toLower_of_slug {c : Char} (h : isSlugChar c = true) :
    c.toLower = c := by
  have h2 := slug_ranges h
  simp only [Char.toLower]
  rw [if_neg]
  intro hc
  omega

theorem hyphenate_of_slug {c : Char} (h : isSlugChar c = true) :
    hyphenate c = c := by
  have h2 := slug_ranges h
  unfold hyphenate
  rw [if_neg]
  simp only [Bool.or_eq_true, beq_iff_eq, not_or]
  constructor
  · intro he
    subst he
    simp only [show (' ').toNat = 32 from rfl] at h2
    omega
  · intro he
    subst he
    simp only [show ('_').toNat = 95 from rfl] at h2
    omega

theorem slug_stages_eq_self (l : List Char)
    (h : ∀ c ∈ l, isSlugChar c = true) :
    (((l.flatMap nfkdChar).map Char.toLower).map hyphenate).filter isSlugChar
      = l := by
  induction l with
  | nil => rfl
  | cons a t ih =>
    have ha := h a (List.mem_cons_self a t)
    have ht := fun c hc => h c (List.mem_cons_of_mem a hc)
    simp only [List.flatMap_cons, nfkdChar_of_slug ha, List.singleton_append,
      List.map_cons, toLower_of_slug ha, hyphenate_of_slug ha,
      List.filter_cons, ha, ih ht]
    simp

/-- Every `Slugify` output is canonical. -/
theorem canonical_slugifyChars (l : List Char) : Canonical (slugifyChars l) := by
  unfold slugifyChars trimHyphens
  set m := (((l.flatMap nfkdChar).map Char.toLower).map hyphenate).filter
    isSlugChar with hm
  refine ⟨?_, ?_, ?_, ?_⟩
  · intro c hc
    rw [List.mem_reverse] at hc
    have hc1 := (List.dropWhile_suffix (· == '-')).subset hc
    rw [List.mem_reverse] at hc1
    have hc2 := (List.dropWhile_suffix (· == '-')).subset hc1
    exact List.of_mem_filter (mem_collapseHyphens m c hc2)
  · have h1 : List.Chain' NoDD ((collapseHyphens m).dropWhile (· == '-')) :=
      chain'_dropWhile (· == '-') _ (chain'_collapseHyphens m)
    rw [List.chain'_reverse]
    refine chain'_dropWhile (· == '-') _ ?_
    rw [List.chain'_reverse]
    exact h1.imp (fun a b hab => hab)
  · rw [List.head?_reverse]
    intro hlast
    have hne : ((collapseHyphens m).dropWhile (· == '-')).reverse.dropWhile
        (· == '-') ≠ [] := by
      intro he
      rw [he] at hlast
      simp at hlast
    have := getLast?_dropWhile (· == '-') _ hne
    rw [hlast, List.getLast?_reverse] at this
    have hhead := head?_dropWhile (· == '-') (collapseHyphens m) '-' this.symm
    simp at hhead
  · rw [List.getLast?_reverse]
    intro hhd
    have := head?_dropWhile (· == '-') _ '-' hhd
    simp at this

/-- `Slugify` is the identity on canonical strings. -/
theorem slugifyChars_eq_self {l : List Char} (h : Canonical l) :
    slugifyChars l = l := by
  obtain ⟨hchars, hchain, hhd, hlast⟩ := h
  unfold slugifyChars
  rw [slug_stages_eq_self l hchars, collapseHyphens_eq_self l hchain,
    trimHyphens_eq_self l hhd hlast]

/-- C9: `Slugify` is idempotent on every input string:
`Slugify (Slugify t) = Slugify t`.  The function is a pure total Lean
function of its argument, so it is deterministic and never fails (on inputs
with no ASCII mapping it returns the empty string, e.g.
`Slugify "日本語" = ""` above). -/
theorem slugify_idempotent (t : String) : Slugify (Slugify t) = Slugify t := by
  show (⟨slugifyChars (slugifyChars t.data)⟩ : String) = ⟨slugifyChars t.data⟩
  rw [slugifyChars_eq_self (canonical_slugifyChars t.data)]

/-! ## C8 — GetCurrentRevision and timestamp ties

`GetCurrentRevision` sorts by `created_at DESC` alone; there is no secondary
`id` sort key in the query, so equal timestamps are returned in table scan
order — the first-inserted (lowest id) row — not by highest id. -/

/-- `c` is the first row of `l` (in scan order) holding the maximal
`createdAt`. -/
def FirstMax (l : List RevisionRow) (c : RevisionRow) : Prop :=
  ∃ pre post, l = pre ++ c :: post ∧
    (∀ x ∈ pre, x.createdAt < c.createdAt) ∧
    ∀ x ∈ l, x.createdAt ≤ c.createdAt

theorem pickCurrent_firstMax : ∀ l : List RevisionRow, l ≠ [] →
    ∃ c, pickCurrent l = some c ∧ FirstMax l c
  | [], h => absurd rfl h
  | r :: rest, _ => by
    by_cases hr : rest = []
    · subst hr
      exact ⟨r, by simp [pickCurrent], [], [], rfl, by simp, by simp⟩
    · obtain ⟨b, hb, pre, post, heq, hpre, hmax⟩ :=
        pickCurrent_firstMax rest hr
      by_cases hgt : b.createdAt > r.createdAt
      · refine ⟨b, ?_, r :: pre, post, by simp [heq], ?_, ?_⟩
        · simp [pickCurrent, hb, hgt]
        · intro x hx
          rcases List.mem_cons.mp hx with h1 | h2
          · subst h1; exact hgt
          · exact hpre x h2
        · intro x hx
          rcases List.mem_cons.mp hx with h1 | h2
          · subst h1; exact Nat.le_of_lt hgt
          · exact hmax x h2
      · refine ⟨r, ?_, [], rest, rfl, by simp, ?_⟩
        · simp [pickCurrent, hb, hgt]
        · intro x hx
          rcases List.mem_cons.mp hx with h1 | h2
          · subst h1; exact Nat.le_refl _
          · exact Nat.le_trans (hmax x h2) (Nat.not_lt.mp hgt)

/-- C8 (amended): `GetCurrentRevision(pageId)` returns a revision of that
page holding the maximal `createdAt`; but the query has no id tie-break —
among revisions sharing the maximal `createdAt` it returns the first row in
table scan order (the earliest inserted, i.e. lowest id), not the highest
id. -/
theorem getCurrentRevision_max (s : Store) (pageID : Nat) (r : RevisionRow)
    (hr : r ∈ s.revisions) (hp : r.pageId = pageID) :
    ∃ c, getCurrentRevision s pageID = .ok c ∧ c.pageId = pageID ∧
      c ∈ s.revisions ∧
      (∀ x ∈ s.revisions, x.pageId = pageID → x.createdAt ≤ c.createdAt) ∧
      FirstMax (s.revisions.filter (fun x => x.pageId == pageID)) c := by
  have hmem : r ∈ s.revisions.filter (fun x => x.pageId == pageID) :=
    List.mem_filter.mpr ⟨hr, by simp [hp]⟩
  have hne : s.revisions.filter (fun x => x.pageId == pageID) ≠ [] := by
    intro he
    rw [he] at hmem
    exact List.not_mem_nil r hmem
  obtain ⟨c, hc, hfm⟩ := pickCurrent_firstMax _ hne
  have hcmem : c ∈ s.revisions.filter (fun x => x.pageId == pageID) := by
    obtain ⟨pre, post, heq, _, _⟩ := hfm
    rw [heq]
    exact List.mem_append.mpr (Or.inr (List.mem_cons_self _ _))
  refine ⟨c, ?_, ?_, ?_, ?_, hfm⟩
  · simp [getCurrentRevision, currentRevision, hc]
  · have := List.of_mem_filter hcmem
    simpa using this
  · exact List.mem_of_mem_filter hcmem
  · intro x hx hxp
    obtain ⟨pre, post, heq, hpre2, hmax2⟩ := hfm
    exact hmax2 x (List.mem_filter.mpr ⟨hx, by simp [hxp]⟩)

theorem getCurrentRevision_max_witness :
    ({ id := 1, pageId := 1, content := "one", authorId := 1,
       createdAt := 5 } : RevisionRow) ∈
      (runOps emptyStore [.create "a" "A" "one" 1 5,
        .update 1 "A" "two" 1 5]).revisions ∧
    ∃ c, getCurrentRevision (runOps emptyStore [.create "a" "A" "one" 1 5,
        .update 1 "A" "two" 1 5]) 1 = .ok c ∧ c.pageId = 1 ∧
      c ∈ (runOps emptyStore [.create "a" "A" "one" 1 5,
        .update 1 "A" "two" 1 5]).revisions ∧
      (∀ x ∈ (runOps emptyStore [.create "a" "A" "one" 1 5,
        .update 1 "A" "two" 1 5]).revisions, x.pageId = 1 →
        x.createdAt ≤ c.createdAt) ∧
      FirstMax ((runOps emptyStore [.create "a" "A" "one" 1 5,
        .update 1 "A" "two" 1 5]).revisions.filter
          (fun x => x.pageId == 1)) c :=
  ⟨by decide,
   getCurrentRevision_max _ 1
     { id := 1, pageId := 1, content := "one", authorId := 1, createdAt := 5 }
     (by decide) rfl⟩

/-- C8 counterexample: after a create and an update of page 1 carrying the
same timestamp, revisions 1 and 2 of page 1 both have `createdAt = 5`, and
`GetCurrentRevision` returns revision 1 — not the highest id 2 the claim
requires. -/
theorem getCurrentRevision_tie_counterexample :
    (runOps emptyStore [.create "a" "A" "one" 1 5,
        .update 1 "A" "two" 1 5]).revisions.map
      (fun r => (r.id, r.pageId, r.createdAt)) = [(1, 1, 5), (2, 1, 5)] ∧
    getCurrentRevision (runOps emptyStore [.create "a" "A" "one" 1 5,
        .update 1 "A" "two" 1 5]) 1 =
      .ok { id := 1, pageId := 1, content := "one", authorId := 1,
            createdAt := 5 } := by
  constructor
  · decide
  · rfl

/-! ## C6 — RestorePage -/

/-- C6 (amended): `RestorePage(pageId)` fails with `NotFound` exactly when no
soft-deleted page row has that id; a soft-deleted page with no revision is
NOT an error — the `LEFT JOIN` makes `COALESCE(r.content,'')` yield a row
regardless, so restore succeeds and indexes empty content.  On success it
clears `deletedAt` and re-inserts the FTS entry built from the page's title
and the latest revision's content (empty when there is none). -/
theorem restorePage_spec (s : Store) (pageID now : Nat)
    (hnd : (s.pages.map (fun p => p.id)).Nodup) :
    ((∀ p ∈ s.pages, p.id = pageID → p.deletedAt = none) →
      restorePage s pageID now = .error .notFound) ∧
    (∀ p ∈ s.pages, p.id = pageID → p.deletedAt ≠ none →
      restorePage s pageID now =
        .ok { s with
              pages := s.pages.map (fun q =>
                if q.id == pageID then
                  { q with deletedAt := none, updatedAt := now }
                else q),
              fts := s.fts ++ [⟨pageID, p.title,
                match currentRevision s pageID with
                | some r => r.content
                | none => ""⟩] }) := by
  constructor
  · intro hall
    have hf : s.pages.find? (fun q => q.id == pageID && q.deletedAt.isSome)
        = none := by
      rw [List.find?_eq_none]
      intro q hq
      simp only [Bool.and_eq_true, beq_iff_eq, Option.isSome_iff_exists,
        not_and]
      intro hqid ⟨d, hd⟩
      rw [hall q hq hqid] at hd
      exact Option.noConfusion hd
    simp [restorePage, hf]
  · intro p hp hpid hdel
    cases hf :
        s.pages.find? (fun q => q.id == pageID && q.deletedAt.isSome) with
    | none =>
      exfalso
      have h2 := List.find?_eq_none.mp hf p hp
      simp only [Bool.and_eq_true, beq_iff_eq,
        Option.isSome_iff_ne_none] at h2
      exact h2 ⟨hpid, hdel⟩
    | some q =>
      have hqmem := List.mem_of_find?_eq_some hf
      have hqpred := List.find?_some hf
      simp only [Bool.and_eq_true, beq_iff_eq] at hqpred
      have hqp : q = p := by
        have := List.inj_on_of_nodup_map hnd hqmem hp
        exact this (by rw [hqpred.1, hpid])
      subst hqp
      simp [restorePage, hf]

theorem restorePage_spec_witness :
    restorePage (runOps emptyStore [.create "a" "A" "x" 1 0,
        .softDelete 1 1]) 1 2 =
      .ok { runOps emptyStore [.create "a" "A" "x" 1 0, .softDelete 1 1] with
            pages := (runOps emptyStore [.create "a" "A" "x" 1 0,
              .softDelete 1 1]).pages.map (fun q =>
                if q.id == 1 then { q with deletedAt := none, updatedAt := 2 }
                else q),
            fts := (runOps emptyStore [.create "a" "A" "x" 1 0,
              .softDelete 1 1]).fts ++ [⟨1, "A",
                match currentRevision (runOps emptyStore
                  [.create "a" "A" "x" 1 0, .softDelete 1 1]) 1 with
                | some r => r.content
                | none => ""⟩] } :=
  (restorePage_spec (runOps emptyStore [.create "a" "A" "x" 1 0,
      .softDelete 1 1]) 1 2 (by decide)).2
    { id := 1, slug := "a", title := "A", isPhantom := false,
      firstCitedByUserID := none, firstCitedInPageID := none,
      deletedAt := some 1, createdAt := 0, updatedAt := 1 }
    (by decide) rfl (by decide)

/-- The store of the C6 counterexample: page 1 is real; page 2 is a phantom
(created by a citation, hence revision-free) that an admin then soft-deleted.
All of this is reachable through the repository's own handlers. -/
def c6Store : Store :=
  match createPhantom (runOps emptyStore [.create "a" "A" "x" 1 0])
      "b" "B" 1 1 1 with
  | .ok (s, _) => applyOp s (.softDelete 2 2)
  | .error _ => emptyStore

/-- C6 counterexample: page 2 is soft-deleted and has no revision at all, yet
`RestorePage(2)` does not fail with `NotFound` — it succeeds and indexes the
page with empty content. -/
theorem restorePage_missing_revision_counterexample :
    c6Store.revisions.filter (fun r => r.pageId == 2) = [] ∧
    c6Store.pages.any (fun p => p.id == 2 && p.deletedAt == some 2) = true ∧
    (match restorePage c6Store 2 3 with
     | .ok s2 => s2.fts.any (fun f => f.rowid == 2 && f.content == "")
     | .error _ => false) = true := by
  decide

/-! ## C7 — soft-deleted rows and read paths -/

/-- C7 (amended): every listing — `ListPages`, `ListPhantoms`,
`ListRecentPages`, `PageStats` — excludes soft-deleted pages, and the admin
`ListDeletedPages` returns them; but `GetPageBySlug` and `GetPageByID` apply
no `deleted_at` filter: they return a soft-deleted page rather than
`NotFound` (their callers inspect `DeletedAt` themselves). -/
theorem softDeleted_read_paths (s : Store) (p : PageRow) (hp : p ∈ s.pages)
    (hd : p.deletedAt ≠ none) :
    p ∉ listPages s ∧ p ∉ listPhantoms s ∧ (∀ n, p ∉ listRecentPages s n) ∧
    p ∈ listDeletedPages s ∧
    (pageStats s).1 = (listPages s).length ∧
    (pageStats s).2 = (listPhantoms s).length ∧
    getPageBySlug s p.slug ≠ .error .notFound ∧
    getPageByID s p.id ≠ .error .notFound := by
  have hds : p.deletedAt.isSome = true := Option.isSome_iff_ne_none.mpr hd
  refine ⟨?_, ?_, ?_, ?_, ?_, ?_, ?_, ?_⟩
  · intro hmem
    have h1 := (List.perm_insertionSort
      (fun a b : PageRow => a.title ≤ b.title) _).mem_iff.mp hmem
    have h2 := List.of_mem_filter h1
    simp at h2
    exact hd h2.2
  · intro hmem
    have h1 := (List.perm_insertionSort
      (fun a b : PageRow => a.title ≤ b.title) _).mem_iff.mp hmem
    have h2 := List.of_mem_filter h1
    simp at h2
    exact hd h2.2
  · intro n hmem
    have h0 := List.take_subset n _ hmem
    have h1 := (List.perm_insertionSort
      (fun a b : PageRow => b.updatedAt ≤ a.updatedAt) _).mem_iff.mp h0
    have h2 := List.of_mem_filter h1
    simp at h2
    exact hd h2.2
  · exact (List.perm_insertionSort
      (fun a b : PageRow => b.deletedAt.getD 0 ≤ a.deletedAt.getD 0)
      _).mem_iff.mpr (List.mem_filter.mpr ⟨hp, hds⟩)
  · exact ((List.perm_insertionSort
      (fun a b : PageRow => a.title ≤ b.title) _).length_eq).symm
  · exact ((List.perm_insertionSort
      (fun a b : PageRow => a.title ≤ b.title) _).length_eq).symm
  · have hsome : (s.pages.find? (fun q => q.slug == p.slug)).isSome :=
      List.find?_isSome.mpr ⟨p, hp, by simp⟩
    unfold getPageBySlug findPageBySlug
    cases hf : s.pages.find? (fun q => q.slug == p.slug) with
    | none => rw [hf] at hsome; simp at hsome
    | some q => simp
  · have hsome : (s.pages.find? (fun q => q.id == p.id)).isSome :=
      List.find?_isSome.mpr ⟨p, hp, by simp⟩
    unfold getPageByID
    cases hf : s.pages.find? (fun q => q.id == p.id) with
    | none => rw [hf] at hsome; simp at hsome
    | some q => simp

theorem softDeleted_read_paths_witness :
    ({ id := 1, slug := "a", title := "A", isPhantom := false,
       firstCitedByUserID := none, firstCitedInPageID := none,
       deletedAt := some 1, createdAt := 0, updatedAt := 1 } : PageRow) ∉
      listPages (runOps emptyStore [.create "a" "A" "x" 1 0,
        .softDelete 1 1]) ∧
    ({ id := 1, slug := "a", title := "A", isPhantom := false,
       firstCitedByUserID := none, firstCitedInPageID := none,
       deletedAt := some 1, createdAt := 0, updatedAt := 1 } : PageRow) ∈
      listDeletedPages (runOps emptyStore [.create "a" "A" "x" 1 0,
        .softDelete 1 1]) ∧
    getPageBySlug (runOps emptyStore [.create "a" "A" "x" 1 0,
      .softDelete 1 1]) "a" ≠ .error .notFound :=
  have h := softDeleted_read_paths
    (runOps emptyStore [.create "a" "A" "x" 1 0, .softDelete 1 1])
    { id := 1, slug := "a", title := "A", isPhantom := false,
      firstCitedByUserID := none, firstCitedInPageID := none,
      deletedAt := some 1, createdAt := 0, updatedAt := 1 }
    (by decide) (by decide)
  ⟨h.1, h.2.2.2.1, h.2.2.2.2.2.2.1⟩

/-- C7 counterexample: after creating page 1 with slug `a` and soft-deleting
it, `GetPageBySlug "a"` does not report `NotFound` — it returns the deleted
row itself (there is no `deleted_at` filter in its query). -/
theorem getPageBySlug_sees_deleted_counterexample :
    getPageBySlug (runOps emptyStore [.create "a" "A" "x" 1 0,
        .softDelete 1 1]) "a" =
      .ok { id := 1, slug := "a", title := "A", isPhantom := false,
            firstCitedByUserID := none, firstCitedInPageID := none,
            deletedAt := some 1, createdAt := 0, updatedAt := 1 } := by
  rfl

/-! ## C4 — the wiki-link parse stage -/

/-- The claim's own description of the content rule, transcribed for the
refinement proof: split the delimited content on the first `|`, trim both
sides, use the left side as reference title and the right side (when
present) as display text defaulting to the trimmed title; no link when the
trimmed title or its slugified form is empty. -/
def wikiLinkSpec (content : List Char) : Option (String × String) :=
  let (l, r) := splitFirstPipe content
  let title := trimSpace l
  let displayText :=
    match r with
    | some rr => trimSpace rr
    | none => title
  if title = [] then none
  else if slugifyChars title = [] then none
  else some (⟨slugifyChars title⟩, ⟨displayText⟩)

/-- No two adjacent `]` characters. -/
def noDoubleRB : List Char → Bool
  | [] => true
  | [_] => true
  | a :: b :: t => !(a == ']' && b == ']') && noDoubleRB (b :: t)

/-- Delimited content that does not itself close the link early or break the
line: no `]]` pair inside, no trailing `]` (which would pair with the
closing delimiter), no newline. -/
def CleanContent (content : List Char) : Prop :=
  noDoubleRB content = true ∧ content.getLast? ≠ some ']' ∧ '\n' ∉ content

instance (content : List Char) : Decidable (CleanContent content) :=
  inferInstanceAs (Decidable (_ ∧ _ ∧ _))

theorem contentBeforeClose_append :
    ∀ content : List Char, CleanContent content →
    ∀ rest, contentBeforeClose (content ++ ']' :: ']' :: rest) = some content
  | [], _, rest => by simp [contentBeforeClose]
  | [c], ⟨_, hlast, hnl⟩, rest => by
    have hc : ¬c = ']' := by
      intro he
      exact hlast (by simp [he])
    have hn : ¬c = '\n' := by
      intro he
      exact hnl (by simp [he])
    simp only [List.cons_append, List.nil_append, contentBeforeClose]
    rw [if_neg (by simp [hc]), if_neg (by simp [hn])]
    simp [contentBeforeClose]
  | c1 :: c2 :: t, ⟨hch, hlast, hnl⟩, rest => by
    rw [noDoubleRB, Bool.and_eq_true] at hch
    have h12 : ¬(c1 = ']' ∧ c2 = ']') := by
      intro ⟨ha, hb⟩
      rw [ha, hb] at hch
      simp at hch
    have hn : ¬c1 = '\n' := by
      intro he
      exact hnl (by simp [he])
    have ih := contentBeforeClose_append (c2 :: t)
      ⟨hch.2,
       by rwa [getLast?_cons_of_ne_nil c1 (by simp)] at hlast,
       fun hm => hnl (List.mem_cons_of_mem _ hm)⟩ rest
    simp only [List.cons_append, contentBeforeClose]
    rw [if_neg (by simpa using h12), if_neg (by simp [hn])]
    simp only [List.append_eq]
    rw [List.cons_append] at ih
    rw [ih]
    rfl

theorem parse_refines_spec (content rest : List Char)
    (h : CleanContent content) :
    parseWikiLink ('[' :: '[' :: (content ++ ']' :: ']' :: rest)) =
      wikiLinkSpec content := by
  have hlen : ¬('[' :: '[' :: (content ++ ']' :: ']' :: rest)).length < 4 := by
    simp [List.length_append]
    omega
  unfold parseWikiLink parseWikiLinkC
  rw [if_neg hlen]
  simp only [contentBeforeClose_append content h rest]
  by_cases hc : content.isEmpty
  · have hce : content = [] := List.isEmpty_iff.mp hc
    subst hce
    simp [wikiLinkSpec, splitFirstPipe, trimSpace, isSpaceChar]
  · rw [if_neg (by simpa using hc)]
    unfold wikiLinkSpec
    cases hsp : splitFirstPipe content with
    | mk l r =>
      cases r with
      | none =>
        simp only []
        by_cases ht : trimSpace l = []
        · rw [if_pos ht, if_pos (by simp [ht])]
          rfl
        · rw [if_neg ht, if_neg (by simpa using ht)]
          by_cases hs : slugifyChars (trimSpace l) = []
          · rw [if_pos hs, if_pos (by simp [hs])]
            rfl
          · rw [if_neg hs, if_neg (by simpa using hs)]
            rfl
      | some rr =>
        simp only []
        by_cases ht : trimSpace l = []
        · rw [if_pos ht, if_pos (by simp [ht])]
          rfl
        · rw [if_neg ht, if_neg (by simpa using ht)]
          by_cases hs : slugifyChars (trimSpace l) = []
          · rw [if_pos hs, if_pos (by simp [hs])]
            rfl
          · rw [if_neg hs, if_neg (by simpa using hs)]
            rfl

/-- C4: the parse stage produces a link only when a matching `]]` occurs on
the same line (a failed close scan yields no link — literal text, not an
error); on a well-formed `[[content]]` it behaves exactly as specified —
content split on the first `|`, both sides trimmed, left side the reference
title, right side (or the trimmed title by default) the display text, and no
link when the trimmed title or its slugified form is empty; in particular
`[[Page Name]]` gives target `page-name` with display `Page Name`,
`[[Page Name|Display]]` gives target `page-name` with display `Display`,
and `[[]]` and the unterminated `[[Page` are not links. -/
theorem wikiLink_parse_spec :
    (∀ l, contentBeforeClose l = none →
      parseWikiLink ('[' :: '[' :: l) = none) ∧
    (∀ content rest, CleanContent content →
      parseWikiLink ('[' :: '[' :: (content ++ ']' :: ']' :: rest)) =
        wikiLinkSpec content) ∧
    parseWikiLink "[[Page Name]]".data = some ("page-name", "Page Name") ∧
    parseWikiLink "[[Page Name|Display]]".data =
      some ("page-name", "Display") ∧
    parseWikiLink "[[]]".data = none ∧
    parseWikiLink "[[Page".data = none := by
  refine ⟨?_, fun content rest h => parse_refines_spec content rest h,
    by decide, by decide, by decide, by decide⟩
  intro l hl
  unfold parseWikiLink parseWikiLinkC
  by_cases h4 : ('[' :: '[' :: l).length < 4
  · rw [if_pos h4]
    rfl
  · rw [if_neg h4]
    simp only [hl]
    rfl

theorem wikiLink_parse_spec_witness :
    contentBeforeClose "Page".data = none ∧
    parseWikiLink ('[' :: '[' :: "Page".data) = none ∧
    CleanContent "Page Name".data ∧
    parseWikiLink ('[' :: '[' :: ("Page Name".data ++ ']' :: ']' :: [])) =
      wikiLinkSpec "Page Name".data :=
  ⟨by decide, wikiLink_parse_spec.1 "Page".data (by decide), by decide,
   wikiLink_parse_spec.2.1 "Page Name".data [] (by decide)⟩

/-! ## C10 — a piped citation titles the phantom with its display text -/

/-- C10: saving content that cites a missing target through
`[[Unwritten Topic|see here]]` creates the phantom under slug
`unwritten-topic` with stored title `see here` — the link's display text,
not the reference title — carrying the saving author and page as provenance,
and `GetPageBySlug` then serves that phantom (so the title persists on the
lookup paths until the page is written). -/
theorem piped_link_phantom_title (s : Store) (userID pageID now : Nat)
    (h : findPageBySlug s "unwritten-topic" = none) :
    ∃ q ∈ (processWikiLinks s "[[Unwritten Topic|see here]]" userID pageID
        now).pages,
      q.slug = "unwritten-topic" ∧ q.title = "see here" ∧
      q.isPhantom = true ∧ q.title ≠ "Unwritten Topic" ∧
      q.firstCitedByUserID = some userID ∧
      q.firstCitedInPageID = some pageID ∧
      getPageBySlug (processWikiLinks s "[[Unwritten Topic|see here]]" userID
        pageID now) "unwritten-topic" = .ok q := by
  have hpe : pageExists s "unwritten-topic" = false := by
    unfold pageExists
    rw [List.any_eq_false]
    intro p hp
    have h2 := List.find?_eq_none.mp h p hp
    simpa using h2
  have hx : uniqueTargets (extractLinks "[[Unwritten Topic|see here]]") =
      ["unwritten-topic"] := by decide
  have hd : (extractLinks "[[Unwritten Topic|see here]]").find?
      (fun l => l.1 == "unwritten-topic") =
      some ("unwritten-topic", "see here") := by decide
  simp only [processWikiLinks]
  rw [hx]
  simp only [List.foldl_cons, List.foldl_nil]
  unfold processTarget
  simp only [hpe, Bool.false_eq_true, if_false, hd, Option.map_some',
    Option.getD_some]
  unfold createPhantom
  rw [h]
  simp only []
  refine ⟨{ id := s.nextPageId, slug := "unwritten-topic",
            title := "see here", isPhantom := true,
            firstCitedByUserID := some userID,
            firstCitedInPageID := some pageID,
            deletedAt := none, createdAt := now, updatedAt := now },
    ?_, rfl, rfl, rfl, by simp, rfl, rfl, ?_⟩
  · simp
  · have h2 : List.find? (fun p => p.slug == "unwritten-topic") s.pages =
        none := h
    unfold getPageBySlug findPageBySlug
    simp only [List.find?_append, h2]
    simp

theorem piped_link_phantom_title_witness :
    findPageBySlug (runOps emptyStore [.create "a" "A" "x" 1 0])
      "unwritten-topic" = none ∧
    ∃ q ∈ (processWikiLinks (runOps emptyStore [.create "a" "A" "x" 1 0])
        "[[Unwritten Topic|see here]]" 1 1 4).pages,
      q.slug = "unwritten-topic" ∧ q.title = "see here" ∧
      q.isPhantom = true ∧ q.title ≠ "Unwritten Topic" ∧
      q.firstCitedByUserID = some 1 ∧ q.firstCitedInPageID = some 1 ∧
      getPageBySlug (processWikiLinks (runOps emptyStore
        [.create "a" "A" "x" 1 0]) "[[Unwritten Topic|see here]]" 1 1 4)
        "unwritten-topic" = .ok q :=
  ⟨by decide,
   piped_link_phantom_title (runOps emptyStore [.create "a" "A" "x" 1 0])
     1 1 4 (by decide)⟩

/-! ## C5 — slug provenance and immutability -/

/-- Every page of `s` appears in `s2` with the same id and the same slug. -/
def SlugsPreserved (s s2 : Store) : Prop :=
  ∀ p ∈ s.pages, ∃ q ∈ s2.pages, q.id = p.id ∧ q.slug = p.slug

theorem slugsPreserved_refl (s : Store) : SlugsPreserved s s :=
  fun p hp => ⟨p, hp, rfl, rfl⟩

theorem slugsPreserved_of_pages_eq {s s2 : Store} (h : s2.pages = s.pages) :
    SlugsPreserved s s2 :=
  fun p hp => ⟨p, by rw [h]; exact hp, rfl, rfl⟩

theorem slugsPreserved_of_append {s s2 : Store} (new : List PageRow)
    (h : s2.pages = s.pages ++ new) : SlugsPreserved s s2 :=
  fun p hp =>
    ⟨p, by rw [h]; exact List.mem_append.mpr (Or.inl hp), rfl, rfl⟩

theorem SlugsPreserved.trans {a b c : Store} (h1 : SlugsPreserved a b)
    (h2 : SlugsPreserved b c) : SlugsPreserved a c := by
  intro p hp
  obtain ⟨q, hq, hqi, hqs⟩ := h1 p hp
  obtain ⟨r, hr, hri, hrs⟩ := h2 q hq
  exact ⟨r, hr, hri.trans hqi, hrs.trans hqs⟩

theorem slugsPreserved_of_map {s s2 : Store} (f : PageRow → PageRow)
    (h : s2.pages = s.pages.map f)
    (hf : ∀ p, (f p).id = p.id ∧ (f p).slug = p.slug) :
    SlugsPreserved s s2 :=
  fun p hp =>
    ⟨f p, by rw [h]; exact List.mem_map_of_mem f hp, (hf p).1, (hf p).2⟩

/-- A string already of `slugifyChars` shape is a `Slugify` fixed point. -/
theorem slugify_mk_slugifyChars (x : List Char) :
    Slugify ⟨slugifyChars x⟩ = ⟨slugifyChars x⟩ := by
  show (⟨slugifyChars (slugifyChars x)⟩ : String) = _
  rw [slugifyChars_eq_self (canonical_slugifyChars x)]

theorem parseWikiLinkC_target_canonical : ∀ {l : List Char}
    {t d : String} {n : Nat},
    parseWikiLinkC l = some (t, d, n) → Slugify t = t := by
  intro l t d n h
  unfold parseWikiLinkC at h
  repeat' first
    | split at h
    | simp only [] at h
  all_goals try exact Option.noConfusion h
  all_goals
    rw [Option.some.injEq, Prod.mk.injEq] at h
  all_goals
    obtain ⟨ht, _⟩ := h
  all_goals rw [← ht]
  all_goals exact slugify_mk_slugifyChars _

theorem scanLinks_target_canonical : ∀ (fuel : Nat) (l : List Char)
    (t dsp : String), (t, dsp) ∈ scanLinks fuel l → Slugify t = t
  | 0, _, t, dsp, h => by simp [scanLinks] at h
  | _ + 1, [], t, dsp, h => by simp [scanLinks] at h
  | fuel + 1, c :: rest, t, dsp, h => by
    rw [scanLinks] at h
    cases hp : parseWikiLinkC (c :: rest) with
    | none =>
      rw [hp] at h
      exact scanLinks_target_canonical fuel rest t dsp h
    | some x =>
      obtain ⟨t0, d0, n0⟩ := x
      rw [hp] at h
      rcases List.mem_cons.mp h with h1 | h2
      · rw [Prod.mk.injEq] at h1
        rw [h1.1]
        exact parseWikiLinkC_target_canonical hp
      · exact scanLinks_target_canonical fuel _ t dsp h2

theorem mem_uniqueTargets_aux : ∀ (links : List (String × String))
    (acc : List String) (x : String),
    x ∈ links.foldl
      (fun acc l => if acc.contains l.1 then acc else acc ++ [l.1]) acc →
    x ∈ acc ∨ ∃ dsp, (x, dsp) ∈ links
  | [], acc, x, h => Or.inl (by simpa using h)
  | l :: rest, acc, x, h => by
    rw [List.foldl_cons] at h
    rcases mem_uniqueTargets_aux rest _ x h with h1 | ⟨dsp, hd⟩
    · by_cases hc : acc.contains l.1
      · rw [if_pos hc] at h1
        exact Or.inl h1
      · rw [if_neg hc] at h1
        rcases List.mem_append.mp h1 with h2 | h3
        · exact Or.inl h2
        · refine Or.inr ⟨l.2, ?_⟩
          have hx : x = l.1 := by simpa using h3
          rw [hx]
          exact List.mem_cons_self _ _
    · exact Or.inr ⟨dsp, List.mem_cons_of_mem _ hd⟩

theorem mem_uniqueTargets {links : List (String × String)} {x : String}
    (h : x ∈ uniqueTargets links) : ∃ dsp, (x, dsp) ∈ links := by
  rcases mem_uniqueTargets_aux links [] x h with h1 | h2
  · simp at h1
  · exact h2

/-- The pages after one `processWikiLinks` iteration: unchanged, or one new
phantom row whose slug is the target. -/
theorem processTarget_pages (links : List (String × String))
    (uid pid now : Nat) (st : Store) (target : String) :
    (processTarget links uid pid now st target).pages = st.pages ∨
    ∃ title, (processTarget links uid pid now st target).pages =
      st.pages ++ [{ id := st.nextPageId, slug := target, title := title,
                     isPhantom := true, firstCitedByUserID := some uid,
                     firstCitedInPageID := some pid, deletedAt := none,
                     createdAt := now, updatedAt := now }] := by
  unfold processTarget
  by_cases hpe : pageExists st target
  · rw [if_pos hpe]
    exact Or.inl rfl
  · rw [if_neg hpe]
    unfold createPhantom
    cases hf : findPageBySlug st target with
    | some p => exact Or.inl rfl
    | none => exact Or.inr ⟨_, rfl⟩

theorem foldl_processTarget_slugs (links : List (String × String))
    (uid pid now : Nat) : ∀ (targets : List String) (st : Store),
    (∀ x ∈ targets, Slugify x = x) →
    SlugsPreserved st (targets.foldl (processTarget links uid pid now) st) ∧
    (∀ q ∈ (targets.foldl (processTarget links uid pid now) st).pages,
      q ∈ st.pages ∨ Slugify q.slug = q.slug)
  | [], st, _ => ⟨slugsPreserved_refl st, fun q hq => Or.inl hq⟩
  | tg :: rest, st, hcan => by
    rw [List.foldl_cons]
    obtain ⟨ih1, ih2⟩ := foldl_processTarget_slugs links uid pid now rest
      (processTarget links uid pid now st tg)
      (fun x hx => hcan x (List.mem_cons_of_mem _ hx))
    have hstep : SlugsPreserved st (processTarget links uid pid now st tg) ∧
        (∀ q ∈ (processTarget links uid pid now st tg).pages,
          q ∈ st.pages ∨ Slugify q.slug = q.slug) := by
      rcases processTarget_pages links uid pid now st tg with hsame |
        ⟨title, happ⟩
      · exact ⟨slugsPreserved_of_pages_eq hsame, fun q hq =>
          Or.inl (by rwa [hsame] at hq)⟩
      · constructor
        · exact slugsPreserved_of_append _ happ
        · intro q hq
          rw [happ] at hq
          rcases List.mem_append.mp hq with h1 | h2
          · exact Or.inl h1
          · right
            have hq2 : q.slug = tg := by
              have hq3 : q =
                  { id := st.nextPageId, slug := tg, title := title,
                    isPhantom := true, firstCitedByUserID := some uid,
                    firstCitedInPageID := some pid, deletedAt := none,
                    createdAt := now, updatedAt := now } := by
                simpa using h2
              rw [hq3]
            rw [hq2]
            exact hcan tg (List.mem_cons_self _ _)
    refine ⟨hstep.1.trans ih1, ?_⟩
    intro q hq
    rcases ih2 q hq with h1 | h2
    · exact hstep.2 q h1
    · exact Or.inr h2

/-- The wiki-link resolution pass keeps every existing page's id and slug,
and every page it adds has a canonical (Slugify-fixed) slug. -/
theorem processWikiLinks_slugs (s : Store) (content : String)
    (uid pid now : Nat) :
    SlugsPreserved s (processWikiLinks s content uid pid now) ∧
    ∀ q ∈ (processWikiLinks s content uid pid now).pages,
      q ∈ s.pages ∨ Slugify q.slug = q.slug := by
  have hcan : ∀ x ∈ uniqueTargets (extractLinks content), Slugify x = x := by
    intro x hx
    obtain ⟨dsp, hdsp⟩ := mem_uniqueTargets hx
    exact scanLinks_target_canonical _ _ x dsp hdsp
  exact foldl_processTarget_slugs (extractLinks content) uid pid now
    (uniqueTargets (extractLinks content)) s hcan

/-- C5 (amended): no store operation — `CreatePage`, `UpdatePage`,
`SoftDeletePage`, `RestorePage`, `CreatePhantom`, the wiki-link resolution
pass, or the whole save handler — ever changes an existing page's slug (ids
keep their slugs through every operation); and every page the wiki-link
resolution pass creates has a slug that is a `Slugify` fixed point (a
Slug-Normalizer output).  However `CreatePage` itself stores the
caller-supplied slug verbatim, and the save handler passes the raw URL
parameter through, so a page created by a save need not have a slug-shaped
slug (see the counterexample). -/
theorem slug_provenance (s : Store) :
    (∀ slug title content aid now s2 pid,
      createPage s slug title content aid now = .ok (s2, pid) →
      SlugsPreserved s s2) ∧
    (∀ pid title content aid now s2,
      updatePage s pid title content aid now = .ok s2 →
      SlugsPreserved s s2) ∧
    (∀ pid now s2, softDeletePage s pid now = .ok s2 →
      SlugsPreserved s s2) ∧
    (∀ pid now s2, restorePage s pid now = .ok s2 → SlugsPreserved s s2) ∧
    (∀ slug title cb ci now s2 pid,
      createPhantom s slug title cb ci now = .ok (s2, pid) →
      SlugsPreserved s s2) ∧
    (∀ content uid pid now,
      SlugsPreserved s (processWikiLinks s content uid pid now) ∧
      ∀ q ∈ (processWikiLinks s content uid pid now).pages,
        q ∈ s.pages ∨ Slugify q.slug = q.slug) ∧
    (∀ slug title content uid now,
      SlugsPreserved s (savePage s slug title content uid now)) := by
  have hcreate : ∀ slug title content aid now s2 pid,
      createPage s slug title content aid now = .ok (s2, pid) →
      SlugsPreserved s s2 := by
    intro slug title content aid now s2 pid h
    unfold createPage at h
    split at h
    · simp only [Except.ok.injEq, Prod.mk.injEq] at h
      obtain ⟨h1, _⟩ := h
      rw [← h1]
      exact slugsPreserved_of_append _ rfl
    · rename_i p hf
      split at h
      · simp only [Except.ok.injEq, Prod.mk.injEq] at h
        obtain ⟨h1, _⟩ := h
        rw [← h1]
        refine slugsPreserved_of_map _ rfl ?_
        intro q
        by_cases hq : (q.id == p.id) = true <;> simp [hq]
      · exact absurd h (by simp)
  have hupdate : ∀ pid title content aid now s2,
      updatePage s pid title content aid now = .ok s2 →
      SlugsPreserved s s2 := by
    intro pid title content aid now s2 h
    unfold updatePage at h
    split at h
    · simp only [Except.ok.injEq] at h
      rw [← h]
      refine slugsPreserved_of_map _ rfl ?_
      intro q
      by_cases hq : (q.id == pid) = true <;> simp [hq]
    · exact absurd h (by simp)
  have hsoft : ∀ pid now s2, softDeletePage s pid now = .ok s2 →
      SlugsPreserved s s2 := by
    intro pid now s2 h
    unfold softDeletePage at h
    split at h
    · simp only [Except.ok.injEq] at h
      rw [← h]
      refine slugsPreserved_of_map _ rfl ?_
      intro q
      by_cases hq : (q.id == pid && q.deletedAt.isNone) = true <;> simp [hq]
    · exact absurd h (by simp)
  have hrestore : ∀ pid now s2, restorePage s pid now = .ok s2 →
      SlugsPreserved s s2 := by
    intro pid now s2 h
    unfold restorePage at h
    split at h
    · exact absurd h (by simp)
    · simp only [Except.ok.injEq] at h
      rw [← h]
      refine slugsPreserved_of_map _ rfl ?_
      intro q
      by_cases hq : (q.id == pid) = true <;> simp [hq]
  have hphant : ∀ slug title cb ci now s2 pid,
      createPhantom s slug title cb ci now = .ok (s2, pid) →
      SlugsPreserved s s2 := by
    intro slug title cb ci now s2 pid h
    unfold createPhantom at h
    split at h
    · simp only [Except.ok.injEq, Prod.mk.injEq] at h
      obtain ⟨h1, _⟩ := h
      rw [← h1]
      exact slugsPreserved_refl s
    · simp only [Except.ok.injEq, Prod.mk.injEq] at h
      obtain ⟨h1, _⟩ := h
      rw [← h1]
      exact slugsPreserved_of_append _ rfl
  refine ⟨hcreate, hupdate, hsoft, hrestore, hphant,
    fun content uid pid now => processWikiLinks_slugs s content uid pid now,
    ?_⟩
  intro slug title content uid now
  unfold savePage
  by_cases h1 : title = ""
  · rw [if_pos h1]
    exact slugsPreserved_refl s
  rw [if_neg h1]
  by_cases h2 : title.utf8ByteSize > 500
  · rw [if_pos h2]
    exact slugsPreserved_refl s
  rw [if_neg h2]
  by_cases h3 : content.utf8ByteSize > 500 * 1024
  · rw [if_pos h3]
    exact slugsPreserved_refl s
  rw [if_neg h3]
  split
  · split
    · rename_i s2 pid hcp
      exact (hcreate slug title content uid now s2 pid hcp).trans
        (processWikiLinks_slugs s2 content uid pid now).1
    · exact slugsPreserved_refl s
  · rename_i p hf
    split
    · split
      · rename_i s2 pid hcp
        exact (hcreate slug title content uid now s2 pid hcp).trans
          (processWikiLinks_slugs s2 content uid pid now).1
      · exact slugsPreserved_refl s
    · split
      · rename_i s2 hup
        exact (hupdate p.id title content uid now s2 hup).trans
          (processWikiLinks_slugs s2 content uid p.id now).1
      · exact slugsPreserved_refl s

theorem slug_provenance_witness :
    createPage emptyStore "a" "A" "x" 1 0 =
      .ok ({ pages := [{ id := 1, slug := "a", title := "A",
                         isPhantom := false, firstCitedByUserID := none,
                         firstCitedInPageID := none, deletedAt := none,
                         createdAt := 0, updatedAt := 0 }],
             revisions := [{ id := 1, pageId := 1, content := "x",
                             authorId := 1, createdAt := 0 }],
             fts := [⟨1, "A", "x"⟩], nextPageId := 2, nextRevId := 2 }, 1) ∧
    SlugsPreserved emptyStore
      { pages := [{ id := 1, slug := "a", title := "A", isPhantom := false,
                    firstCitedByUserID := none, firstCitedInPageID := none,
                    deletedAt := none, createdAt := 0, updatedAt := 0 }],
        revisions := [{ id := 1, pageId := 1, content := "x", authorId := 1,
                        createdAt := 0 }],
        fts := [⟨1, "A", "x"⟩], nextPageId := 2, nextRevId := 2 } :=
  ⟨rfl, (slug_provenance emptyStore).1 "a" "A" "x" 1 0 _ 1 rfl⟩

/-- C5 counterexample: the save handler passes the raw URL slug through to
`CreatePage` verbatim.  A POST to the save route for `Weird%20Slug` creates
a page whose slug `"Weird Slug"` is not a Slug-Normalizer output: by
idempotence the range of `Slugify` is exactly its set of fixed points, and
`Slugify "Weird Slug" = "weird-slug" ≠ "Weird Slug"`. -/
theorem savePage_raw_slug_counterexample :
    (savePage emptyStore "Weird Slug" "T" "" 1 0).pages.map
      (fun p => p.slug) = ["Weird Slug"] ∧
    Slugify "Weird Slug" = "weird-slug" ∧
    "weird-slug" ≠ "Weird Slug" := by
  refine ⟨?_, by decide, by decide⟩
  decide

/-! ## C1 — the search-index synchronization invariant

The induction below carries, besides the index invariant itself, the
bookkeeping facts that make it self-sustaining: distinct page ids below the
autoincrement counter, no phantoms (none of the four operations can create
one), revision timestamps below the clock, revision ownership, and distinct
index rowids. -/

/-- The inductive invariant for runs of `create`/`update`/`softDelete`/
`restore`; `t` is a lower bound on the next operation's timestamp. -/
structure Inv (s : Store) (t : Nat) : Prop where
  idsNodup : (s.pages.map (fun p => p.id)).Nodup
  idsLt : ∀ p ∈ s.pages, p.id < s.nextPageId
  noPhantom : ∀ p ∈ s.pages, p.isPhantom = false
  revTime : ∀ r ∈ s.revisions, r.createdAt < t
  revOwner : ∀ r ∈ s.revisions, ∃ p ∈ s.pages, r.pageId = p.id
  ftsNodup : (s.fts.map (fun f => f.rowid)).Nodup
  ftsLive : ∀ f ∈ s.fts, ∃ p ∈ s.pages, p.id = f.rowid ∧ p.deletedAt = none
  liveFts : ∀ p ∈ s.pages, p.deletedAt = none →
    ∃ f ∈ s.fts, f.rowid = p.id
  ftsContent : ∀ p ∈ s.pages, ∀ f ∈ s.fts, f.rowid = p.id →
    f.title = p.title ∧
    some f.content = (currentRevision s p.id).map (fun r => r.content)
  hasRev : ∀ p ∈ s.pages, (currentRevision s p.id).isSome = true

theorem inv_empty : Inv emptyStore 0 := by
  refine ⟨?_, ?_, ?_, ?_, ?_, ?_, ?_, ?_, ?_, ?_⟩ <;> simp [emptyStore]

theorem inv_mono {s : Store} {t t2 : Nat} (inv : Inv s t) (h : t ≤ t2) :
    Inv s t2 :=
  { inv with revTime := fun r hr => Nat.lt_of_lt_of_le (inv.revTime r hr) h }

theorem page_unique {s : Store} {t : Nat} (inv : Inv s t) {p q : PageRow}
    (hp : p ∈ s.pages) (hq : q ∈ s.pages) (h : p.id = q.id) : p = q :=
  List.inj_on_of_nodup_map inv.idsNodup hp hq h

theorem pickCurrent_cons_isSome (r : RevisionRow)
    (rest : List RevisionRow) : (pickCurrent (r :: rest)).isSome = true := by
  rw [pickCurrent]
  cases pickCurrent rest with
  | none => rfl
  | some b => by_cases h : b.createdAt > r.createdAt <;> simp [h]

theorem pickCurrent_append_max : ∀ (l : List RevisionRow) (r : RevisionRow),
    (∀ x ∈ l, x.createdAt < r.createdAt) → pickCurrent (l ++ [r]) = some r
  | [], r, _ => by simp [pickCurrent]
  | a :: l, r, h => by
    have ih := pickCurrent_append_max l r
      (fun x hx => h x (List.mem_cons_of_mem _ hx))
    rw [List.cons_append, pickCurrent, ih]
    simp [h a (List.mem_cons_self a l)]

theorem filter_append_rev (rs : List RevisionRow) (rev : RevisionRow)
    (pid : Nat) :
    (rs ++ [rev]).filter (fun r => r.pageId == pid) =
      rs.filter (fun r => r.pageId == pid) ++
        (if rev.pageId == pid then [rev] else []) := by
  rw [List.filter_append]
  congr 1
  by_cases h : (rev.pageId == pid) = true <;> simp [h]

/-- `currentRevision` of a store whose revision table grew by one row for a
different page is unchanged. -/
theorem currentRevision_append_other {rs : List RevisionRow}
    {rev : RevisionRow} {pid : Nat} (h : ¬rev.pageId = pid) :
    pickCurrent ((rs ++ [rev]).filter (fun r => r.pageId == pid)) =
      pickCurrent (rs.filter (fun r => r.pageId == pid)) := by
  rw [filter_append_rev, if_neg (by simpa using h), List.append_nil]

/-- `currentRevision` after appending a strictly newer revision of the page
is that revision. -/
theorem currentRevision_append_newer {rs : List RevisionRow}
    {rev : RevisionRow} {pid : Nat} (h : rev.pageId = pid)
    (hnew : ∀ x ∈ rs, x.createdAt < rev.createdAt) :
    pickCurrent ((rs ++ [rev]).filter (fun r => r.pageId == pid)) =
      some rev := by
  rw [filter_append_rev, if_pos (by simpa using h)]
  exact pickCurrent_append_max _ rev
    (fun x hx => hnew x (List.mem_of_mem_filter hx))

theorem inv_create_fresh {s : Store} {t : Nat} (inv : Inv s t)
    (slug title content : String) (aid now : Nat) (ht : t ≤ now) :
    Inv { pages := s.pages ++
            [{ id := s.nextPageId, slug := slug, title := title,
               isPhantom := false, firstCitedByUserID := none,
               firstCitedInPageID := none, deletedAt := none,
               createdAt := now, updatedAt := now }],
          revisions := s.revisions ++
            [{ id := s.nextRevId, pageId := s.nextPageId,
               content := content, authorId := aid, createdAt := now }],
          fts := s.fts ++ [⟨s.nextPageId, title, content⟩],
          nextPageId := s.nextPageId + 1,
          nextRevId := s.nextRevId + 1 } (now + 1) := by
  set pid := s.nextPageId with hpid
  set page : PageRow :=
    { id := pid, slug := slug, title := title, isPhantom := false,
      firstCitedByUserID := none, firstCitedInPageID := none,
      deletedAt := none, createdAt := now, updatedAt := now } with hpage
  set rev : RevisionRow :=
    { id := s.nextRevId, pageId := pid, content := content,
      authorId := aid, createdAt := now } with hrev
  have hfp : ∀ p ∈ s.pages, p.id ≠ pid := by
    intro p hp he
    exact absurd (inv.idsLt p hp) (by rw [he]; exact Nat.lt_irrefl _)
  have hff : ∀ f ∈ s.fts, f.rowid ≠ pid := by
    intro f hf he
    obtain ⟨p, hp, hpi, _⟩ := inv.ftsLive f hf
    exact hfp p hp (hpi.trans he)
  have hfr : ∀ r ∈ s.revisions, r.pageId ≠ pid := by
    intro r hr he
    obtain ⟨p, hp, hpi⟩ := inv.revOwner r hr
    exact hfp p hp (hpi ▸ he)
  have hcrOld : ∀ q : Nat, q ≠ pid →
      pickCurrent ((s.revisions ++ [rev]).filter
        (fun r => r.pageId == q)) =
      pickCurrent (s.revisions.filter (fun r => r.pageId == q)) := by
    intro q hq
    exact currentRevision_append_other
      (by simp [hrev]; exact fun he => hq he.symm)
  have hcrNew :
      pickCurrent ((s.revisions ++ [rev]).filter
        (fun r => r.pageId == pid)) = some rev := by
    refine currentRevision_append_newer (by simp [hrev]) ?_
    intro x hx
    calc x.createdAt < t := inv.revTime x hx
      _ ≤ now := ht
  refine ⟨?_, ?_, ?_, ?_, ?_, ?_, ?_, ?_, ?_, ?_⟩
  · rw [List.map_append, List.nodup_append]
    refine ⟨inv.idsNodup, by simp, ?_⟩
    intro x hx hx2
    obtain ⟨p, hp, hpi⟩ := List.mem_map.mp hx
    have hx3 : x = page.id := by simpa using hx2
    exact hfp p hp (by rw [hpi, hx3])
  · intro p hp
    rcases List.mem_append.mp hp with h1 | h2
    · exact Nat.lt_succ_of_lt (inv.idsLt p h1)
    · have : p = page := by simpa using h2
      rw [this]
      exact Nat.lt_succ_self _
  · intro p hp
    rcases List.mem_append.mp hp with h1 | h2
    · exact inv.noPhantom p h1
    · have : p = page := by simpa using h2
      rw [this]
  · intro r hr
    rcases List.mem_append.mp hr with h1 | h2
    · have := inv.revTime r h1
      omega
    · have : r = rev := by simpa using h2
      rw [this, hrev]
      exact Nat.lt_succ_self _
  · intro r hr
    rcases List.mem_append.mp hr with h1 | h2
    · obtain ⟨p, hp, hpi⟩ := inv.revOwner r h1
      exact ⟨p, List.mem_append.mpr (Or.inl hp), hpi⟩
    · have : r = rev := by simpa using h2
      refine ⟨page, List.mem_append.mpr (Or.inr (by simp)), ?_⟩
      rw [this, hrev, hpage]
  · rw [List.map_append, List.nodup_append]
    refine ⟨inv.ftsNodup, by simp, ?_⟩
    intro x hx hx2
    obtain ⟨f, hf, hfi⟩ := List.mem_map.mp hx
    have hx3 : x = pid := by simpa using hx2
    exact hff f hf (by rw [hfi, hx3])
  · intro f hf
    rcases List.mem_append.mp hf with h1 | h2
    · obtain ⟨p, hp, hpi, hpd⟩ := inv.ftsLive f h1
      exact ⟨p, List.mem_append.mpr (Or.inl hp), hpi, hpd⟩
    · have : f = ⟨pid, title, content⟩ := by simpa using h2
      refine ⟨page, List.mem_append.mpr (Or.inr (by simp)), ?_, rfl⟩
      rw [this, hpage]
  · intro p hp hlive
    rcases List.mem_append.mp hp with h1 | h2
    · obtain ⟨f, hf, hfi⟩ := inv.liveFts p h1 hlive
      exact ⟨f, List.mem_append.mpr (Or.inl hf), hfi⟩
    · have : p = page := by simpa using h2
      refine ⟨⟨pid, title, content⟩, List.mem_append.mpr (Or.inr (by simp)),
        ?_⟩
      rw [this, hpage]
  · intro p hp f hf hrow
    rcases List.mem_append.mp hp with hp1 | hp2
    · rcases List.mem_append.mp hf with hf1 | hf2
      · have hcc := inv.ftsContent p hp1 f hf1 hrow
        refine ⟨hcc.1, ?_⟩
        rw [hcc.2]
        show _ = (pickCurrent _).map _
        rw [hcrOld p.id (hfp p hp1)]
        rfl
      · exfalso
        have hfe : f = ⟨pid, title, content⟩ := by simpa using hf2
        exact hfp p hp1 (by rw [← hrow, hfe])
    · have hpe : p = page := by simpa using hp2
      rcases List.mem_append.mp hf with hf1 | hf2
      · exfalso
        apply hff f hf1
        rw [hrow, hpe, hpage]
      · have hfe : f = ⟨pid, title, content⟩ := by simpa using hf2
        refine ⟨by rw [hfe, hpe, hpage], ?_⟩
        show _ = (pickCurrent _).map _
        rw [hpe, hpage]
        show some f.content = (pickCurrent ((s.revisions ++ [rev]).filter
          (fun r => r.pageId == pid))).map (fun r => r.content)
        rw [hcrNew, hfe]
        rfl
  · intro p hp
    rcases List.mem_append.mp hp with h1 | h2
    · show (pickCurrent _).isSome = true
      rw [hcrOld p.id (hfp p h1)]
      exact inv.hasRev p h1
    · have : p = page := by simpa using h2
      show (pickCurrent _).isSome = true
      rw [this, hpage]
      show (pickCurrent ((s.revisions ++ [rev]).filter
        (fun r => r.pageId == pid))).isSome = true
      rw [hcrNew]
      rfl

theorem map_id_comp {f : PageRow → PageRow} (hf : ∀ q, (f q).id = q.id) :
    ∀ l : List PageRow,
      (l.map f).map (fun p => p.id) = l.map (fun p => p.id)
  | [] => rfl
  | q :: l => by simp [map_id_comp hf l, hf q]

theorem inv_update {s : Store} {t : Nat} (inv : Inv s t)
    (pid : Nat) (title content : String) (aid now : Nat) (ht : t ≤ now)
    (A : PageRow) (hA : A ∈ s.pages) (hAid : A.id = pid)
    (hAlive : A.deletedAt = none) :
    Inv { pages := s.pages.map (fun q =>
            if q.id == pid then { q with title := title, updatedAt := now }
            else q),
          revisions := s.revisions ++
            [{ id := s.nextRevId, pageId := pid, content := content,
               authorId := aid, createdAt := now }],
          fts := (s.fts.filter (fun f => f.rowid != pid)) ++
            [⟨pid, title, content⟩],
          nextPageId := s.nextPageId,
          nextRevId := s.nextRevId + 1 } (now + 1) := by
  set g : PageRow → PageRow := fun q =>
    if q.id == pid then { q with title := title, updatedAt := now } else q
    with hg
  set rev : RevisionRow :=
    { id := s.nextRevId, pageId := pid, content := content,
      authorId := aid, createdAt := now } with hrev
  have hgid : ∀ q, (g q).id = q.id := by
    intro q
    rw [hg]
    by_cases h : (q.id == pid) = true <;> simp [h]
  have hgph : ∀ q, (g q).isPhantom = q.isPhantom := by
    intro q
    rw [hg]
    by_cases h : (q.id == pid) = true <;> simp [h]
  have hgdel : ∀ q, (g q).deletedAt = q.deletedAt := by
    intro q
    rw [hg]
    by_cases h : (q.id == pid) = true <;> simp [h]
  have hgother : ∀ q : PageRow, q.id ≠ pid → g q = q := by
    intro q h
    rw [hg]
    simp [h]
  have hgA : (g A).title = title := by
    rw [hg]
    simp [hAid]
  have hcrOld : ∀ q : Nat, q ≠ pid →
      pickCurrent ((s.revisions ++ [rev]).filter
        (fun r => r.pageId == q)) =
      pickCurrent (s.revisions.filter (fun r => r.pageId == q)) := by
    intro q hq
    exact currentRevision_append_other
      (by simp [hrev]; exact fun he => hq he.symm)
  have hcrNew :
      pickCurrent ((s.revisions ++ [rev]).filter
        (fun r => r.pageId == pid)) = some rev := by
    refine currentRevision_append_newer (by simp [hrev]) ?_
    intro x hx
    calc x.createdAt < t := inv.revTime x hx
      _ ≤ now := ht
  refine ⟨?_, ?_, ?_, ?_, ?_, ?_, ?_, ?_, ?_, ?_⟩
  · rw [map_id_comp hgid]
    exact inv.idsNodup
  · intro p hp
    obtain ⟨q, hq, hqe⟩ := List.mem_map.mp hp
    rw [← hqe, hgid]
    exact inv.idsLt q hq
  · intro p hp
    obtain ⟨q, hq, hqe⟩ := List.mem_map.mp hp
    rw [← hqe, hgph]
    exact inv.noPhantom q hq
  · intro r hr
    rcases List.mem_append.mp hr with h1 | h2
    · have := inv.revTime r h1
      omega
    · have : r = rev := by simpa using h2
      rw [this, hrev]
      exact Nat.lt_succ_self _
  · intro r hr
    rcases List.mem_append.mp hr with h1 | h2
    · obtain ⟨p, hp, hpi⟩ := inv.revOwner r h1
      exact ⟨g p, List.mem_map_of_mem g hp, by rw [hgid]; exact hpi⟩
    · have : r = rev := by simpa using h2
      refine ⟨g A, List.mem_map_of_mem g hA, ?_⟩
      rw [this, hrev, hgid, hAid]
  · rw [List.map_append, List.nodup_append]
    refine ⟨?_, by simp, ?_⟩
    · exact ((List.filter_sublist _).map _).nodup inv.ftsNodup
    · intro x hx hx2
      have hx3 : x = pid := by simpa using hx2
      obtain ⟨f, hf, hfi⟩ := List.mem_map.mp hx
      have := List.of_mem_filter hf
      rw [hfi, hx3] at this
      simp at this
  · intro f hf
    rcases List.mem_append.mp hf with h1 | h2
    · obtain ⟨p, hp, hpi, hpd⟩ := inv.ftsLive f (List.mem_of_mem_filter h1)
      exact ⟨g p, List.mem_map_of_mem g hp, by rw [hgid]; exact hpi,
        by rw [hgdel]; exact hpd⟩
    · have : f = ⟨pid, title, content⟩ := by simpa using h2
      refine ⟨g A, List.mem_map_of_mem g hA, ?_, by rw [hgdel]; exact hAlive⟩
      rw [hgid, hAid, this]
  · intro p hp hlive
    obtain ⟨q, hq, hqe⟩ := List.mem_map.mp hp
    rw [← hqe, hgdel] at hlive
    by_cases hqid : q.id = pid
    · refine ⟨⟨pid, title, content⟩, List.mem_append.mpr (Or.inr (by simp)),
        ?_⟩
      rw [← hqe, hgid, hqid]
    · obtain ⟨f, hf, hfi⟩ := inv.liveFts q hq hlive
      refine ⟨f, List.mem_append.mpr (Or.inl ?_), ?_⟩
      · refine List.mem_filter.mpr ⟨hf, ?_⟩
        rw [hfi]
        simpa using hqid
      · rw [← hqe, hgid]
        exact hfi
  · intro p hp f hf hrow
    obtain ⟨q, hq, hqe⟩ := List.mem_map.mp hp
    rw [← hqe, hgid] at hrow
    by_cases hqid : q.id = pid
    · have hqA : q = A := page_unique inv hq hA (by rw [hqid, hAid])
      rcases List.mem_append.mp hf with h1 | h2
      · exfalso
        have := List.of_mem_filter h1
        rw [hrow, hqid] at this
        simp at this
      · have hfe : f = ⟨pid, title, content⟩ := by simpa using h2
        constructor
        · rw [hfe, ← hqe, hqA, hgA]
        · show _ = (pickCurrent _).map _
          rw [← hqe, hgid, hqid, hcrNew, hfe]
          rfl
    · have hgq : g q = q := hgother q hqid
      rcases List.mem_append.mp hf with h1 | h2
      · have hcc := inv.ftsContent q hq f (List.mem_of_mem_filter h1) hrow
        refine ⟨by rw [← hqe, hgq]; exact hcc.1, ?_⟩
        show _ = (pickCurrent _).map _
        rw [← hqe, hgid, hcrOld q.id hqid]
        exact hcc.2
      · exfalso
        have hfe : f = ⟨pid, title, content⟩ := by simpa using h2
        rw [hfe] at hrow
        exact hqid hrow.symm
  · intro p hp
    obtain ⟨q, hq, hqe⟩ := List.mem_map.mp hp
    show (pickCurrent _).isSome = true
    rw [← hqe, hgid]
    by_cases hqid : q.id = pid
    · rw [hqid, hcrNew]
      rfl
    · rw [hcrOld q.id hqid]
      exact inv.hasRev q hq

theorem inv_softDelete {s : Store} {t : Nat} (inv : Inv s t)
    (pid now : Nat) (ht : t ≤ now) :
    Inv { s with
          pages := s.pages.map (fun q =>
            if q.id == pid && q.deletedAt.isNone then
              { q with deletedAt := some now, updatedAt := now }
            else q),
          fts := s.fts.filter (fun f => f.rowid != pid) } (now + 1) := by
  set g : PageRow → PageRow := fun q =>
    if q.id == pid && q.deletedAt.isNone then
      { q with deletedAt := some now, updatedAt := now }
    else q with hg
  have hgid : ∀ q, (g q).id = q.id := by
    intro q
    rw [hg]
    by_cases h : (q.id == pid && q.deletedAt.isNone) = true <;> simp [h]
  have hgph : ∀ q, (g q).isPhantom = q.isPhantom := by
    intro q
    rw [hg]
    by_cases h : (q.id == pid && q.deletedAt.isNone) = true <;> simp [h]
  have hgtitle : ∀ q, (g q).title = q.title := by
    intro q
    rw [hg]
    by_cases h : (q.id == pid && q.deletedAt.isNone) = true <;> simp [h]
  have hgother : ∀ q : PageRow, q.id ≠ pid → g q = q := by
    intro q h
    rw [hg]
    simp [h]
  have hgcond : ∀ q : PageRow,
      ¬(q.id == pid && q.deletedAt.isNone) = true → g q = q := by
    intro q h
    rw [hg]
    simp only []
    exact if_neg h
  refine ⟨?_, ?_, ?_, ?_, ?_, ?_, ?_, ?_, ?_, ?_⟩
  · rw [map_id_comp hgid]
    exact inv.idsNodup
  · intro p hp
    obtain ⟨q, hq, hqe⟩ := List.mem_map.mp hp
    rw [← hqe, hgid]
    exact inv.idsLt q hq
  · intro p hp
    obtain ⟨q, hq, hqe⟩ := List.mem_map.mp hp
    rw [← hqe, hgph]
    exact inv.noPhantom q hq
  · intro r hr
    have := inv.revTime r hr
    omega
  · intro r hr
    obtain ⟨p, hp, hpi⟩ := inv.revOwner r hr
    exact ⟨g p, List.mem_map_of_mem g hp, by rw [hgid]; exact hpi⟩
  · exact ((List.filter_sublist _).map _).nodup inv.ftsNodup
  · intro f hf
    have hpred := List.of_mem_filter hf
    have hfr : f.rowid ≠ pid := by simpa using hpred
    obtain ⟨p, hp, hpi, hpd⟩ := inv.ftsLive f (List.mem_of_mem_filter hf)
    have hpne : p.id ≠ pid := by rw [hpi]; exact hfr
    refine ⟨g p, List.mem_map_of_mem g hp, ?_, ?_⟩
    · rw [hgid]
      exact hpi
    · rw [hgother p hpne]
      exact hpd
  · intro p hp hlive
    obtain ⟨q, hq, hqe⟩ := List.mem_map.mp hp
    by_cases hc : (q.id == pid && q.deletedAt.isNone) = true
    · exfalso
      rw [← hqe] at hlive
      rw [hg] at hlive
      simp only [hc, if_true] at hlive
      exact Option.noConfusion hlive
    · have hgq : g q = q := hgcond q hc
      rw [← hqe, hgq] at hlive
      have hqne : q.id ≠ pid := by
        intro he
        apply hc
        simp [he, hlive]
      obtain ⟨f, hf, hfi⟩ := inv.liveFts q hq hlive
      refine ⟨f, List.mem_filter.mpr ⟨hf, ?_⟩, ?_⟩
      · rw [hfi]
        simpa using hqne
      · rw [← hqe, hgq]
        exact hfi
  · intro p hp f hf hrow
    obtain ⟨q, hq, hqe⟩ := List.mem_map.mp hp
    have hfr : f.rowid ≠ pid := by simpa using List.of_mem_filter hf
    rw [← hqe, hgid] at hrow
    have hqne : q.id ≠ pid := by rw [← hrow]; exact hfr
    have hgq : g q = q := hgother q hqne
    have hcc := inv.ftsContent q hq f (List.mem_of_mem_filter hf) hrow
    refine ⟨by rw [← hqe, hgq]; exact hcc.1, ?_⟩
    show _ = (pickCurrent _).map _
    rw [← hqe, hgid]
    exact hcc.2
  · intro p hp
    obtain ⟨q, hq, hqe⟩ := List.mem_map.mp hp
    show (pickCurrent _).isSome = true
    rw [← hqe, hgid]
    exact inv.hasRev q hq

theorem inv_restore {s : Store} {t : Nat} (inv : Inv s t)
    (pid now : Nat) (ht : t ≤ now)
    (p0 : PageRow) (hp0 : p0 ∈ s.pages) (hp0id : p0.id = pid)
    (hp0del : p0.deletedAt.isSome = true) :
    Inv { s with
          pages := s.pages.map (fun q =>
            if q.id == pid then
              { q with deletedAt := none, updatedAt := now }
            else q),
          fts := s.fts ++ [⟨pid, p0.title,
            match currentRevision s pid with
            | some r => r.content
            | none => ""⟩] } (now + 1) := by
  set g : PageRow → PageRow := fun q =>
    if q.id == pid then { q with deletedAt := none, updatedAt := now }
    else q with hg
  have hsome : (currentRevision s pid).isSome = true := by
    have h2 := inv.hasRev p0 hp0
    rwa [hp0id] at h2
  obtain ⟨r0, hr0⟩ := Option.isSome_iff_exists.mp hsome
  set c0 : String := (match currentRevision s pid with
    | some r => r.content
    | none => "") with hc0
  have hc0v : c0 = r0.content := by
    rw [hc0, hr0]
  have hgid : ∀ q, (g q).id = q.id := by
    intro q
    rw [hg]
    by_cases h : (q.id == pid) = true <;> simp [h]
  have hgph : ∀ q, (g q).isPhantom = q.isPhantom := by
    intro q
    rw [hg]
    by_cases h : (q.id == pid) = true <;> simp [h]
  have hgtitle : ∀ q, (g q).title = q.title := by
    intro q
    rw [hg]
    by_cases h : (q.id == pid) = true <;> simp [h]
  have hgother : ∀ q : PageRow, q.id ≠ pid → g q = q := by
    intro q h
    rw [hg]
    simp [h]
  have hnofts : ∀ f ∈ s.fts, f.rowid ≠ pid := by
    intro f hf he
    obtain ⟨q, hq, hqi, hqd⟩ := inv.ftsLive f hf
    have hqp : q = p0 := page_unique inv hq hp0 (by rw [hqi, he, hp0id])
    have hd : p0.deletedAt = none := by
      rw [← hqp]
      exact hqd
    rw [hd] at hp0del
    exact Bool.noConfusion hp0del
  refine ⟨?_, ?_, ?_, ?_, ?_, ?_, ?_, ?_, ?_, ?_⟩
  · rw [map_id_comp hgid]
    exact inv.idsNodup
  · intro p hp
    obtain ⟨q, hq, hqe⟩ := List.mem_map.mp hp
    rw [← hqe, hgid]
    exact inv.idsLt q hq
  · intro p hp
    obtain ⟨q, hq, hqe⟩ := List.mem_map.mp hp
    rw [← hqe, hgph]
    exact inv.noPhantom q hq
  · intro r hr
    have := inv.revTime r hr
    omega
  · intro r hr
    obtain ⟨p, hp, hpi⟩ := inv.revOwner r hr
    exact ⟨g p, List.mem_map_of_mem g hp, by rw [hgid]; exact hpi⟩
  · rw [List.map_append, List.nodup_append]
    refine ⟨inv.ftsNodup, by simp, ?_⟩
    intro x hx hx2
    have hx3 : x = pid := by simpa using hx2
    obtain ⟨f, hf, hfi⟩ := List.mem_map.mp hx
    exact hnofts f hf (by rw [hfi, hx3])
  · intro f hf
    rcases List.mem_append.mp hf with h1 | h2
    · obtain ⟨p, hp, hpi, hpd⟩ := inv.ftsLive f h1
      have hpne : p.id ≠ pid := by rw [hpi]; exact hnofts f h1
      refine ⟨g p, List.mem_map_of_mem g hp, ?_, ?_⟩
      · rw [hgid]
        exact hpi
      · rw [hgother p hpne]
        exact hpd
    · have hfe : f = ⟨pid, p0.title, c0⟩ := by simpa using h2
      refine ⟨g p0, List.mem_map_of_mem g hp0, ?_, ?_⟩
      · rw [hgid, hp0id, hfe]
      · rw [hg]
        simp [hp0id]
  · intro p hp hlive
    obtain ⟨q, hq, hqe⟩ := List.mem_map.mp hp
    by_cases hqid : q.id = pid
    · refine ⟨⟨pid, p0.title, c0⟩, List.mem_append.mpr (Or.inr (by simp)),
        ?_⟩
      rw [← hqe, hgid, hqid]
    · have hgq : g q = q := hgother q hqid
      rw [← hqe, hgq] at hlive
      obtain ⟨f, hf, hfi⟩ := inv.liveFts q hq hlive
      refine ⟨f, List.mem_append.mpr (Or.inl hf), ?_⟩
      rw [← hqe, hgq]
      exact hfi
  · intro p hp f hf hrow
    obtain ⟨q, hq, hqe⟩ := List.mem_map.mp hp
    rw [← hqe, hgid] at hrow
    by_cases hqid : q.id = pid
    · have hqp : q = p0 := page_unique inv hq hp0 (by rw [hqid, hp0id])
      rcases List.mem_append.mp hf with h1 | h2
      · exact absurd (hrow.trans hqid) (hnofts f h1)
      · have hfe : f = ⟨pid, p0.title, c0⟩ := by simpa using h2
        constructor
        · rw [hfe, ← hqe, hqp, hgtitle]
        · show _ = (pickCurrent _).map _
          rw [← hqe, hgid, hqid]
          show some f.content =
            (pickCurrent (s.revisions.filter
              (fun r => r.pageId == pid))).map (fun r => r.content)
          have hcr : pickCurrent (s.revisions.filter
              (fun r => r.pageId == pid)) = some r0 := hr0
          rw [hcr, hfe]
          simp only [Option.map_some']
          rw [hc0v]
    · have hgq : g q = q := hgother q hqid
      rcases List.mem_append.mp hf with h1 | h2
      · have hcc := inv.ftsContent q hq f h1 hrow
        refine ⟨by rw [← hqe, hgq]; exact hcc.1, ?_⟩
        show _ = (pickCurrent _).map _
        rw [← hqe, hgid]
        exact hcc.2
      · exfalso
        have hfe : f = ⟨pid, p0.title, c0⟩ := by simpa using h2
        rw [hfe] at hrow
        exact hqid hrow.symm
  · intro p hp
    obtain ⟨q, hq, hqe⟩ := List.mem_map.mp hp
    show (pickCurrent _).isSome = true
    rw [← hqe, hgid]
    exact inv.hasRev q hq

theorem inv_step {s : Store} {t : Nat} (inv : Inv s t) (op : Op)
    (hok : opOK s op = true) (ht : t ≤ op.time) :
    Inv (applyOp s op) (op.time + 1) := by
  cases op with
  | create slug title content aid now =>
    simp only [applyOp, Op.time]
    simp only [Op.time] at ht
    split
    · rename_i s2 pid hcp
      unfold createPage at hcp
      split at hcp
      · simp only [Except.ok.injEq, Prod.mk.injEq] at hcp
        obtain ⟨h1, _⟩ := hcp
        rw [← h1]
        exact inv_create_fresh inv slug title content aid now ht
      · rename_i p hf
        split at hcp
        · rename_i hph
          rw [inv.noPhantom p (List.mem_of_find?_eq_some hf)] at hph
          exact absurd hph (by simp)
        · exact absurd hcp (by simp)
    · exact inv_mono inv (by omega)
  | update pid title content aid now =>
    simp only [applyOp, Op.time]
    simp only [Op.time] at ht
    simp only [opOK] at hok
    obtain ⟨A, hA, hcond⟩ := List.any_eq_true.mp hok
    simp only [Bool.and_eq_true, beq_iff_eq, Bool.not_eq_true',
      Option.isNone_iff_eq_none] at hcond
    split
    · rename_i s2 hup
      unfold updatePage at hup
      split at hup
      · simp only [Except.ok.injEq] at hup
        rw [← hup]
        exact inv_update inv pid title content aid now ht A hA
          hcond.1.1 hcond.1.2
      · exact absurd hup (by simp)
    · exact inv_mono inv (by omega)
  | softDelete pid now =>
    simp only [applyOp, Op.time]
    simp only [Op.time] at ht
    split
    · rename_i s2 hsd
      unfold softDeletePage at hsd
      split at hsd
      · simp only [Except.ok.injEq] at hsd
        rw [← hsd]
        exact inv_softDelete inv pid now ht
      · exact absurd hsd (by simp)
    · exact inv_mono inv (by omega)
  | restore pid now =>
    simp only [applyOp, Op.time]
    simp only [Op.time] at ht
    split
    · rename_i s2 hrs
      unfold restorePage at hrs
      split at hrs
      · exact absurd hrs (by simp)
      · rename_i p0 hfind
        simp only [Except.ok.injEq] at hrs
        rw [← hrs]
        have hmem := List.mem_of_find?_eq_some hfind
        have hpred := List.find?_some hfind
        simp only [Bool.and_eq_true, beq_iff_eq] at hpred
        exact inv_restore inv pid now ht p0 hmem hpred.1 hpred.2
    · exact inv_mono inv (by omega)

theorem inv_run : ∀ (ops : List Op) (s : Store) (t : Nat),
    Inv s t → legalFrom t s ops = true → ∃ t2, Inv (runOps s ops) t2
  | [], s, t, inv, _ => ⟨t, inv⟩
  | op :: rest, s, t, inv, hleg => by
    rw [legalFrom] at hleg
    rw [Bool.and_eq_true] at hleg
    obtain ⟨h12, h3⟩ := hleg
    rw [Bool.and_eq_true] at h12
    obtain ⟨h1, h2⟩ := h12
    have ht : t ≤ op.time := by simpa using h1
    have hrec := inv_run rest (applyOp s op) (op.time + 1)
      (inv_step inv op h2 ht) h3
    simpa [runOps, List.foldl_cons] using hrec

/-- C1 (amended): after any sequence of `CreatePage`, `UpdatePage`,
`SoftDeletePage` and `RestorePage` operations starting from the migrated
empty database — provided operation timestamps strictly increase (real
`time.Now()` behaviour) and every `UpdatePage` targets an existing,
non-deleted, non-phantom page — the `pages_fts` table contains an entry for
page P iff P is non-phantom and not soft-deleted, and every such entry
stores exactly P's current title together with the content of P's current
revision.  Without the `UpdatePage` restriction the invariant fails (see the
counterexample): `UpdatePage` re-indexes soft-deleted pages, and the save
handler can reach that state since `GetPageBySlug` returns deleted rows. -/
theorem searchIndex_sync (ops : List Op)
    (h : legalFrom 0 emptyStore ops = true) :
    ∀ p ∈ (runOps emptyStore ops).pages,
      ((∃ f ∈ (runOps emptyStore ops).fts, f.rowid = p.id) ↔
        (p.isPhantom = false ∧ p.deletedAt = none)) ∧
      ∀ f ∈ (runOps emptyStore ops).fts, f.rowid = p.id →
        f.title = p.title ∧
        some f.content =
          (currentRevision (runOps emptyStore ops) p.id).map
            (fun r => r.content) := by
  obtain ⟨t2, inv⟩ := inv_run ops emptyStore 0 inv_empty h
  intro p hp
  constructor
  · constructor
    · rintro ⟨f, hf, hrow⟩
      obtain ⟨q, hq, hqi, hqd⟩ := inv.ftsLive f hf
      have hqp : q = p := page_unique inv hq hp (by rw [hqi, hrow])
      rw [hqp] at hqd
      exact ⟨inv.noPhantom p hp, hqd⟩
    · rintro ⟨_, hlive⟩
      exact inv.liveFts p hp hlive
  · intro f hf hrow
    exact inv.ftsContent p hp f hf hrow

theorem searchIndex_sync_witness :
    legalFrom 0 emptyStore [.create "a" "A" "x" 1 0, .update 1 "A2" "y" 1 1,
      .softDelete 1 2] = true ∧
    (∀ p ∈ (runOps emptyStore [.create "a" "A" "x" 1 0,
        .update 1 "A2" "y" 1 1, .softDelete 1 2]).pages,
      ((∃ f ∈ (runOps emptyStore [.create "a" "A" "x" 1 0,
          .update 1 "A2" "y" 1 1, .softDelete 1 2]).fts, f.rowid = p.id) ↔
        (p.isPhantom = false ∧ p.deletedAt = none)) ∧
      ∀ f ∈ (runOps emptyStore [.create "a" "A" "x" 1 0,
          .update 1 "A2" "y" 1 1, .softDelete 1 2]).fts, f.rowid = p.id →
        f.title = p.title ∧
        some f.content =
          (currentRevision (runOps emptyStore [.create "a" "A" "x" 1 0,
            .update 1 "A2" "y" 1 1, .softDelete 1 2]) p.id).map
              (fun r => r.content)) :=
  ⟨by decide,
   searchIndex_sync [.create "a" "A" "x" 1 0, .update 1 "A2" "y" 1 1,
     .softDelete 1 2] (by decide)⟩

/-- C1 counterexample: create page 1, soft-delete it, then run `UpdatePage`
on it (reachable through the save handler, which looks pages up without a
`deleted_at` filter).  Afterwards page 1 is still soft-deleted yet
`pages_fts` holds an entry for it — the synchronization invariant is
violated for unrestricted operation sequences. -/
theorem searchIndex_sync_counterexample :
    (runOps emptyStore [.create "a" "A" "x" 1 0, .softDelete 1 1,
      .update 1 "A2" "y" 1 2]).pages.any
        (fun p => p.id == 1 && p.deletedAt.isSome) = true ∧
    (runOps emptyStore [.create "a" "A" "x" 1 0, .softDelete 1 1,
      .update 1 "A2" "y" 1 2]).fts.any (fun f => f.rowid == 1) = true := by
  decide

end Lexicon
